import Mathlib

/-!
Verification of the message-formatting/splitting pipeline of the
openrouter-tg-bot repository (Go), against its natural-language spec.

Modelling conventions:
* Go strings are byte strings.  The formatting layer (src/handlers.go) only
  inspects ASCII bytes, so there we model a string as a `List Char` where each
  element stands for one byte.  The UTF-8 normalization layer
  (ensureUTF8 / sanitizeResponse) is modelled at the byte level as `List Nat`.
* Go slice indexing text[i] is modelled with List.getD; every use is in bounds
  (guarded by the surrounding loop conditions), the default is the NUL char.
* Loops with a decreasing index are modelled by structural recursion on an
  iteration count; loops that repeatedly cut a prefix off a string are
  modelled with a fuel argument initialised to the string length (each
  iteration removes at least one element, so the fuel is never exhausted on
  the executions the theorems speak about).
* Go map iteration order is unspecified; where the source iterates over a map
  (ensureHTMLTagsClosed, decodeHTMLEntities) we fix the first-occurrence /
  source-literal order and state only order-independent properties.
-/

/-- Convert a string literal to the byte/char list representation. -/
def cs (s : String) : List Char := s.toList

/-- Default char for (always in-bounds) indexing, the NUL byte. -/
def c0 : Char := Char.ofNat 0

/-! ### findSplitPoint (src/handlers.go lines 721-749)

The Go loops have the shape `for i := maxSize; i > maxSize/2; i--`.
`scanDesc f i n` runs `f` on `i, i-1, ..., i-n+1` and returns the first
`some` result, i.e. the loop body result for the largest matching index. -/

def scanDesc (f : Nat → Option Nat) : Nat → Nat → Option Nat
  | _, 0 => none
  | i, n + 1 =>
    match f i with
    | some r => some r
    | none => scanDesc f (i - 1) n

/-- The split-point search, generic in the element type so that it can be
instantiated at both the char level and the byte level.  `nlc spc dotc qmc exc`
are the elements standing for the bytes of \n, space, '.', '?', '!', and `z`
is the (never used in bounds) indexing default. -/
def findSplitPointA [DecidableEq α] (z nlc spc dotc qmc exc : α)
    (text : List α) (maxSize : Nat) : Nat :=
  if text.length ≤ maxSize then text.length
  else
    match scanDesc (fun i =>
        if text.getD i z = nlc ∧ 0 < i ∧ text.getD (i - 1) z = nlc then
          some (i + 1) else none) maxSize (maxSize - maxSize / 2) with
    | some r => r
    | none =>
      match scanDesc (fun i =>
          if text.getD i z = nlc then some (i + 1) else none) maxSize
          (maxSize - maxSize / 2) with
      | some r => r
      | none =>
        match scanDesc (fun i =>
            if i < text.length ∧ (text.getD i z = dotc ∨ text.getD i z = qmc ∨
                text.getD i z = exc) then
              some (if i + 1 < text.length ∧ text.getD (i + 1) z = spc then
                      i + 2 else i + 1)
            else none) maxSize (maxSize - maxSize / 2) with
        | some r => r
        | none =>
          match scanDesc (fun i =>
              if text.getD i z = spc then some (i + 1) else none) maxSize
              (maxSize - maxSize / 2) with
          | some r => r
          | none => maxSize

/-- findSplitPoint on char-level strings. -/
def findSplitPoint (text : List Char) (maxSize : Nat) : Nat :=
  findSplitPointA c0 '\n' ' ' '.' '?' '!' text maxSize

/-- findSplitPoint on byte-level strings. -/
def findSplitPointB (text : List Nat) (maxSize : Nat) : Nat :=
  findSplitPointA 0 10 32 46 63 33 text maxSize

/-! ### sendMultipartMessage's splitting loop (src/handlers.go lines 672-686)

    for len(remaining) > maxPartSize {
        splitIndex := findSplitPoint(remaining, maxPartSize)
        parts = append(parts, remaining[:splitIndex])
        remaining = remaining[splitIndex:]
    }
    if len(remaining) > 0 { parts = append(parts, remaining) }

The fuel is initialised to the length of the text; since every iteration of
the loop removes at least one element (for maxSize ≥ 1), the fuel is never
exhausted and the fuel-0 branch mirrors the loop exit. -/

def splitPartsGoA [DecidableEq α] (z nlc spc dotc qmc exc : α) (maxSize : Nat) :
    Nat → List α → List (List α)
  | 0, rem => if 0 < rem.length then [rem] else []
  | fuel + 1, rem =>
    if maxSize < rem.length then
      let k := findSplitPointA z nlc spc dotc qmc exc rem maxSize
      rem.take k :: splitPartsGoA z nlc spc dotc qmc exc maxSize fuel (rem.drop k)
    else if 0 < rem.length then [rem] else []

/-- The parts produced by sendMultipartMessage's loop, char level. -/
def splitMessage (text : List Char) (maxSize : Nat) : List (List Char) :=
  splitPartsGoA c0 '\n' ' ' '.' '?' '!' maxSize text.length text

/-- The parts produced by sendMultipartMessage's loop, byte level. -/
def splitMessageB (text : List Nat) (maxSize : Nat) : List (List Nat) :=
  splitPartsGoA 0 10 32 46 63 33 maxSize text.length text

/-! ### ensureHTMLTagsClosed (src/handlers.go lines 618-640)

The source runs two independent regexp scans over the fragment:
open tags with pattern  <([a-z]+)[^>]*>  and closing tags with  </([a-z]+)>,
counts them per tag name, and appends the missing closing tags.

Regexp semantics modelled (Go RE2, leftmost match, non-overlapping scan):
* open tag: at a '<', read one or more lowercase letters, then skip to the
  first following '>' (the [^>]* part cannot cross a '>'); if there is no
  such '>', there is no match at this position and the scan resumes one
  character after the '<'.
* closing tag: at "</", read one or more lowercase letters which must be
  immediately followed by '>'.
The scans consume variable amounts of input, so they take a fuel argument
initialised to the fragment length (an upper bound on the number of steps). -/

def isLowerAZ (c : Char) : Bool := 'a' ≤ c && c ≤ 'z'

/-- Longest prefix of lowercase letters, with the rest of the list. -/
def takeLetters : List Char → List Char × List Char
  | [] => ([], [])
  | c :: rest =>
    if isLowerAZ c then
      let p := takeLetters rest
      (c :: p.1, p.2)
    else ([], c :: rest)

/-- Drop characters up to and including the first '>'.  none if there is no '>'. -/
def dropThroughGt : List Char → Option (List Char)
  | [] => none
  | c :: rest => if c = '>' then some rest else dropThroughGt rest

/-- Names of the matches of the open-tag regexp, in order. -/
def openTagsF : Nat → List Char → List (List Char)
  | 0, _ => []
  | _ + 1, [] => []
  | fuel + 1, c :: rest =>
    if c = '<' then
      match takeLetters rest with
      | ([], _) => openTagsF fuel rest
      | (name, r1) =>
        match dropThroughGt r1 with
        | some r2 => name :: openTagsF fuel r2
        | none => openTagsF fuel rest
    else openTagsF fuel rest

def openTags (s : List Char) : List (List Char) := openTagsF s.length s

/-- Names of the matches of the closing-tag regexp, in order. -/
def closeTagsF : Nat → List Char → List (List Char)
  | 0, _ => []
  | _ + 1, [] => []
  | fuel + 1, c :: rest =>
    if c = '<' then
      match rest with
      | d :: rest1 =>
        if d = '/' then
          match takeLetters rest1 with
          | ([], _) => closeTagsF fuel rest
          | (name, r1) =>
            match r1 with
            | e :: r2 =>
              if e = '>' then name :: closeTagsF fuel r2
              else closeTagsF fuel rest
            | [] => closeTagsF fuel rest
        else closeTagsF fuel rest
      | [] => closeTagsF fuel rest
    else closeTagsF fuel rest

def closeTags (s : List Char) : List (List Char) := closeTagsF s.length s

/-- Keys in order of first occurrence (the Go source iterates the tagCount
map, whose order is unspecified; all the properties stated below are
independent of this order). -/
def dedupAcc [DecidableEq α] (seen : List α) : List α → List α
  | [] => []
  | x :: xs => if x ∈ seen then dedupAcc seen xs else x :: dedupAcc (x :: seen) xs

/-- The text of a closing tag for a given name. -/
def closerFor (t : List Char) : List Char := '<' :: '/' :: (t ++ ['>'])

/-- The closing tags appended by ensureHTMLTagsClosed: for every tag name with
more opens than closes, (opens - closes) copies of the closing tag. -/
def appendedClosers (f : List Char) : List Char :=
  let opens := openTags f
  let closes := closeTags f
  ((dedupAcc [] (opens ++ closes)).map fun t =>
      (List.replicate (opens.count t - closes.count t) (closerFor t)).flatten).flatten

def ensureHTMLTagsClosed (f : List Char) : List Char := f ++ appendedClosers f

/-! ### sendMultipartHTMLMessage's splitting loop (src/handlers.go 321-337)

Identical to sendMultipartMessage's loop except that each part produced by a
cut is passed through ensureHTMLTagsClosed; the final remainder is appended
without repair.  maxPartSize is the constant 4000. -/

def splitHTMLGo (maxSize : Nat) : Nat → List Char → List (List Char)
  | 0, rem => if 0 < rem.length then [rem] else []
  | fuel + 1, rem =>
    if maxSize < rem.length then
      let k := findSplitPoint rem maxSize
      ensureHTMLTagsClosed (rem.take k) :: splitHTMLGo maxSize fuel (rem.drop k)
    else if 0 < rem.length then [rem] else []

def splitHTMLMessage (text : List Char) (maxSize : Nat) : List (List Char) :=
  splitHTMLGo maxSize text.length text

/-! ### Tag-stack validator

Modelled from the spec: "scanning each part alone with a tag-stack validator
ends with an empty stack" (spec sections 4.3 and 8).  The validator is not in
the source; it scans opening and closing tags of the HTML subset in document
order, pushes names on opens, and pops on matching closes. -/

inductive TagTok where
  | openTag (name : List Char)
  | closeTag (name : List Char)
deriving DecidableEq

/-- All tag occurrences in document order (open tags as in the open-tag
regexp, closing tags as in the closing-tag regexp). -/
def tagTokensF : Nat → List Char → List TagTok
  | 0, _ => []
  | _ + 1, [] => []
  | fuel + 1, c :: rest =>
    if c = '<' then
      match rest with
      | d :: rest1 =>
        if d = '/' then
          match takeLetters rest1 with
          | ([], _) => tagTokensF fuel rest
          | (name, r1) =>
            match r1 with
            | e :: r2 =>
              if e = '>' then TagTok.closeTag name :: tagTokensF fuel r2
              else tagTokensF fuel rest
            | [] => tagTokensF fuel rest
        else
          match takeLetters rest with
          | ([], _) => tagTokensF fuel rest
          | (name, r1) =>
            match dropThroughGt r1 with
            | some r2 => TagTok.openTag name :: tagTokensF fuel r2
            | none => tagTokensF fuel rest
      | [] => tagTokensF fuel rest
    else tagTokensF fuel rest

def tagTokens (s : List Char) : List TagTok := tagTokensF s.length s

def stackScan : List TagTok → List (List Char) → Bool
  | [], [] => true
  | [], _ :: _ => false
  | TagTok.openTag t :: rest, st => stackScan rest (t :: st)
  | TagTok.closeTag _ :: _, [] => false
  | TagTok.closeTag t :: rest, t' :: st => t = t' && stackScan rest st

/-- A part has balanced tags iff the tag-stack scan ends with an empty stack. -/
def tagsBalanced (s : List Char) : Bool := stackScan (tagTokens s) []

/-! ### Plain text helpers

stripHTMLTags (src/handlers.go 613-615): regexp <[^>]*> replaced by "".
At a '<', the match runs to the first following '>' (possibly immediately);
without a '>' there is no match and the scan resumes after the '<'. -/

def stripHTMLTagsF : Nat → List Char → List Char
  | 0, s => s
  | _ + 1, [] => []
  | fuel + 1, c :: rest =>
    if c = '<' then
      match dropThroughGt rest with
      | some r2 => stripHTMLTagsF fuel r2
      | none => c :: stripHTMLTagsF fuel rest
    else c :: stripHTMLTagsF fuel rest

def stripHTMLTags (s : List Char) : List Char := stripHTMLTagsF s.length s

/-! ### UTF-8 normalization (src/handlers.go 752-762, src/openrouter.go 279-295)

Byte-level model.  utf8Tokens is the sequential decoding that
utf8.ValidString and strings.Map perform: each step consumes either one
well-formed UTF-8 encoding (producing its rune) or exactly one byte of an
invalid encoding (producing RuneError, of value 0xFFFD).  The accepted byte
ranges are those of Go's unicode/utf8 package (rejecting overlong encodings,
surrogates, and runes above 0x10FFFF). -/

inductive Utf8Tok where
  | valid (r : Nat) (bytes : List Nat)
  | invalid (b : Nat)
deriving DecidableEq

def isCont (b : Nat) : Bool := 0x80 ≤ b && b ≤ 0xBF

/-- Acceptable second byte for a three-byte encoding with lead byte b. -/
def cont3ok (b b1 : Nat) : Bool :=
  if b = 0xE0 then 0xA0 ≤ b1 && b1 ≤ 0xBF
  else if b = 0xED then 0x80 ≤ b1 && b1 ≤ 0x9F
  else isCont b1

/-- Acceptable second byte for a four-byte encoding with lead byte b. -/
def cont4ok (b b1 : Nat) : Bool :=
  if b = 0xF0 then 0x90 ≤ b1 && b1 ≤ 0xBF
  else if b = 0xF4 then 0x80 ≤ b1 && b1 ≤ 0x8F
  else isCont b1

def utf8TokensF : Nat → List Nat → List Utf8Tok
  | 0, _ => []
  | _ + 1, [] => []
  | fuel + 1, b :: rest =>
    if b < 0x80 then Utf8Tok.valid b [b] :: utf8TokensF fuel rest
    else if 0xC2 ≤ b ∧ b ≤ 0xDF then
      match rest with
      | b1 :: r1 =>
        if isCont b1 then
          Utf8Tok.valid ((b - 0xC0) * 0x40 + (b1 - 0x80)) [b, b1] ::
            utf8TokensF fuel r1
        else Utf8Tok.invalid b :: utf8TokensF fuel (b1 :: r1)
      | [] => [Utf8Tok.invalid b]
    else if 0xE0 ≤ b ∧ b ≤ 0xEF then
      match rest with
      | b1 :: b2 :: r2 =>
        if cont3ok b b1 && isCont b2 then
          Utf8Tok.valid ((b - 0xE0) * 0x1000 + (b1 - 0x80) * 0x40 + (b2 - 0x80))
            [b, b1, b2] :: utf8TokensF fuel r2
        else Utf8Tok.invalid b :: utf8TokensF fuel (b1 :: b2 :: r2)
      | rest' => Utf8Tok.invalid b :: utf8TokensF fuel rest'
    else if 0xF0 ≤ b ∧ b ≤ 0xF4 then
      match rest with
      | b1 :: b2 :: b3 :: r3 =>
        if cont4ok b b1 && isCont b2 && isCont b3 then
          Utf8Tok.valid ((b - 0xF0) * 0x40000 + (b1 - 0x80) * 0x1000 +
              (b2 - 0x80) * 0x40 + (b3 - 0x80)) [b, b1, b2, b3] ::
            utf8TokensF fuel r3
        else Utf8Tok.invalid b :: utf8TokensF fuel (b1 :: b2 :: b3 :: r3)
      | rest' => Utf8Tok.invalid b :: utf8TokensF fuel rest'
    else Utf8Tok.invalid b :: utf8TokensF fuel rest

def utf8Tokens (bs : List Nat) : List Utf8Tok := utf8TokensF bs.length bs

/-- UTF-8 encoding of a rune, as in Go's utf8.EncodeRune / WriteRune: runes
that are surrogates or above 0x10FFFF are encoded as RuneError (EF BF BD). -/
def utf8Encode (r : Nat) : List Nat :=
  if r < 0x80 then [r]
  else if r < 0x800 then [0xC0 + r / 0x40, 0x80 + r % 0x40]
  else if 0xD800 ≤ r ∧ r ≤ 0xDFFF then [0xEF, 0xBF, 0xBD]
  else if r < 0x10000 then
    [0xE0 + r / 0x1000, 0x80 + r / 0x40 % 0x40, 0x80 + r % 0x40]
  else if r < 0x110000 then
    [0xF0 + r / 0x40000, 0x80 + r / 0x1000 % 0x40, 0x80 + r / 0x40 % 0x40,
     0x80 + r % 0x40]
  else [0xEF, 0xBF, 0xBD]

def tokIsValid : Utf8Tok → Bool
  | Utf8Tok.valid _ _ => true
  | Utf8Tok.invalid _ => false

/-- utf8.ValidString: the sequential decode hits no invalid encoding. -/
def utf8ValidString (bs : List Nat) : Bool := (utf8Tokens bs).all tokIsValid

/-- strings.Map: decode runes sequentially (an invalid byte decodes to
RuneError = 0xFFFD), apply the mapping, re-encode. -/
def stringsMapUTF8 (f : Nat → Nat) (bs : List Nat) : List Nat :=
  ((utf8Tokens bs).map fun tok =>
    match tok with
    | Utf8Tok.valid r _ => utf8Encode (f r)
    | Utf8Tok.invalid _ => utf8Encode (f 0xFFFD)).flatten

/-- The rune mapping used by ensureUTF8 and sanitizeResponse:
if r == utf8.RuneError then '�' else r. -/
def runeFix (r : Nat) : Nat := if r = 0xFFFD then 0xFFFD else r

/-- ensureUTF8 (src/handlers.go 752-762). -/
def ensureUTF8 (bs : List Nat) : List Nat :=
  if utf8ValidString bs then bs else stringsMapUTF8 runeFix bs

/-- strings.ReplaceAll(text, "\r\n", "\n"): leftmost, non-overlapping. -/
def crlfReplaceF : Nat → List Nat → List Nat
  | 0, s => s
  | _ + 1, [] => []
  | fuel + 1, b :: rest =>
    if b = 13 then
      match rest with
      | b2 :: rest2 =>
        if b2 = 10 then 10 :: crlfReplaceF fuel rest2
        else b :: crlfReplaceF fuel rest
      | [] => [b]
    else b :: crlfReplaceF fuel rest

def crlfReplace (s : List Nat) : List Nat := crlfReplaceF s.length s

/-- sanitizeResponse (src/openrouter.go 279-295): the same conditional
strings.Map as ensureUTF8 (the source duplicates the code), followed by
CRLF-to-LF normalization. -/
def sanitizeResponse (bs : List Nat) : List Nat := crlfReplace (ensureUTF8 bs)

/-- The bytes a decoded token came from. -/
def tokBytes : Utf8Tok → List Nat
  | Utf8Tok.valid _ ob => ob
  | Utf8Tok.invalid b => [b]

/-- The bytes a token contributes after the rune-by-rune repair: a valid
encoding is kept verbatim, each byte of an invalid encoding becomes the
replacement character EF BF BD. -/
def repairBytes : Utf8Tok → List Nat
  | Utf8Tok.valid _ ob => ob
  | Utf8Tok.invalid _ => [0xEF, 0xBF, 0xBD]

/-! ### String helpers shared by the translator and the handlers -/

/-- p is a prefix of the second list. -/
def leadsWith : List Char → List Char → Bool
  | [], _ => true
  | _ :: _, [] => false
  | p :: ps, c :: rest => p = c && leadsWith ps rest

/-- Split at the leftmost occurrence of a (nonempty) pattern:
returns (text before the match, text after the match). -/
def breakOnSub (pat : List Char) : List Char → Option (List Char × List Char)
  | [] => none
  | c :: rest =>
    if leadsWith pat (c :: rest) then some ([], (c :: rest).drop pat.length)
    else
      match breakOnSub pat rest with
      | some (pre, post) => some (c :: pre, post)
      | none => none

/-- strings.TrimSpace, restricted to the ASCII whitespace bytes (the inputs
the claims quantify over contain no non-ASCII Unicode spaces). -/
def isSpaceGo (c : Char) : Bool :=
  c = ' ' || c = '\t' || c = '\n' || c = Char.ofNat 11 || c = Char.ofNat 12 ||
    c = '\r'

def trimSpace (l : List Char) : List Char :=
  ((l.dropWhile isSpaceGo).reverse.dropWhile isSpaceGo).reverse

/-- strings.Trim with an explicit cutset. -/
def trimChars (set : List Char) (l : List Char) : List Char :=
  ((l.dropWhile (set.contains ·)).reverse.dropWhile (set.contains ·)).reverse

def sepJoin (sep : List Char) (ls : List (List Char)) : List Char :=
  List.intercalate sep ls

/-! ### convertToTelegramHTML (src/handlers.go 391-424)

Each regexp substitution pass is modelled as a left-to-right scanner with the
usual RE2 leftmost-match, non-overlapping semantics; a dot in a pattern does
not match a newline.  Each scanner has a fuel argument (initialised to the
input length, enough because every step consumes at least one character). -/

/-- html.EscapeString. -/
def escapeHTMLString : List Char → List Char
  | [] => []
  | c :: rest =>
    (if c = '&' then cs "&amp;"
     else if c = '\'' then cs "&#39;"
     else if c = '<' then cs "&lt;"
     else if c = '>' then cs "&gt;"
     else if c = '"' then cs "&#34;"
     else [c]) ++ escapeHTMLString rest

/-- Pass 1: fenced code blocks, pattern three backticks, a lazy non-newline
info string, a newline, a lazy any-char body, three backticks; the body is
HTML-escaped and wrapped in pre tags. -/
def codeBlocksF : Nat → List Char → List Char
  | 0, s => s
  | _ + 1, [] => []
  | fuel + 1, c :: rest =>
    if leadsWith (cs "```") (c :: rest) then
      match breakOnSub ['\n'] (rest.drop 2) with
      | none => c :: codeBlocksF fuel rest
      | some (info, afterNl) =>
        if info.contains '\n' then c :: codeBlocksF fuel rest
        else
          match breakOnSub (cs "```") afterNl with
          | none => c :: codeBlocksF fuel rest
          | some (content, after) =>
            cs "<pre>" ++ escapeHTMLString content ++ cs "</pre>" ++
              codeBlocksF fuel after
    else c :: codeBlocksF fuel rest

/-- Pass 2: inline code, one backtick, one or more non-backtick chars, one
backtick. -/
def inlineCodeF : Nat → List Char → List Char
  | 0, s => s
  | _ + 1, [] => []
  | fuel + 1, c :: rest =>
    if c = '`' then
      match breakOnSub ['`'] rest with
      | some ([], _) => c :: inlineCodeF fuel rest
      | some (content, after) =>
        cs "<code>" ++ content ++ cs "</code>" ++ inlineCodeF fuel after
      | none => c :: inlineCodeF fuel rest
    else c :: inlineCodeF fuel rest

/-- Pass 3: double-star pairs with a lazy non-newline body become bold. -/
def boldStarStarF : Nat → List Char → List Char
  | 0, s => s
  | _ + 1, [] => []
  | fuel + 1, c :: rest =>
    if leadsWith (cs "**") (c :: rest) then
      match breakOnSub (cs "**") (rest.drop 1) with
      | some (content, after) =>
        if content.contains '\n' then c :: boldStarStarF fuel rest
        else cs "<b>" ++ content ++ cs "</b>" ++ boldStarStarF fuel after
      | none => c :: boldStarStarF fuel rest
    else c :: boldStarStarF fuel rest

/-- Passes 4 and 5: a single-char delimiter pair with a lazy (possibly empty)
non-newline body, wrapped in the given tags.  The source instantiates this at
delimiter star with bold tags (line 408) and at underscore with italic tags
(line 411). -/
def pairDelimF (d : Char) (lt rt : List Char) : Nat → List Char → List Char
  | 0, s => s
  | _ + 1, [] => []
  | fuel + 1, c :: rest =>
    if c = d then
      match breakOnSub [d] rest with
      | some (content, after) =>
        if content.contains '\n' then c :: pairDelimF d lt rt fuel rest
        else lt ++ content ++ rt ++ pairDelimF d lt rt fuel after
      | none => c :: pairDelimF d lt rt fuel rest
    else c :: pairDelimF d lt rt fuel rest

/-- Search for the matching "](" + url + ")" after a '[': lazily extend the
label over successive ']' candidates (leftmost-first regexp semantics).
Returns (label, url, rest after the match). -/
def linkTail : Nat → List Char → Option (List Char × List Char × List Char)
  | 0, _ => none
  | fuel + 1, s =>
    match breakOnSub [']'] s with
    | none => none
    | some (pre, post) =>
      if pre.contains '\n' then none
      else
        let longer : Option (List Char × List Char × List Char) :=
          match linkTail fuel post with
          | some (l2, u, a) => some (pre ++ ']' :: l2, u, a)
          | none => none
        match post with
        | '(' :: rest2 =>
          match breakOnSub [')'] rest2 with
          | some (url, after) =>
            if url.contains '\n' then longer else some (pre, url, after)
          | none => longer
        | _ => longer

/-- Pass 6: markdown links become anchors. -/
def linksF : Nat → List Char → List Char
  | 0, s => s
  | _ + 1, [] => []
  | fuel + 1, c :: rest =>
    if c = '[' then
      match linkTail (rest.length + 1) rest with
      | some (label, url, after) =>
        cs "<a href=\"" ++ url ++ cs "\">" ++ label ++ cs "</a>" ++
          linksF fuel after
      | none => c :: linksF fuel rest
    else c :: linksF fuel rest

/-! ### convertTableToTelegramFormat (src/handlers.go 427-505)

The multiline table regexp is transliterated to a scan over the list of
newline-separated lines (the texts this pipeline sees are LF-normalized):
a table block is a header line |...|, a separator line of dashes, colons,
pipes and spaces, and a maximal run of data lines |...|. -/

def extractTableCells (row : List Char) : List (List Char) :=
  let r1 := trimChars ['\r', '\n'] row
  let r2 := if r1.head? = some '|' then r1.tail else r1
  let r3 := if r2.getLast? = some '|' then r2.dropLast else r2
  (r3.splitOn '|').map trimSpace

def isTableRowLine (l : List Char) : Bool :=
  match l with
  | '|' :: t => 2 ≤ t.length && t.getLast? = some '|'
  | _ => false

def isTableSepLine (l : List Char) : Bool :=
  match l with
  | '|' :: t =>
    2 ≤ t.length && t.getLast? = some '|' &&
      t.dropLast.all fun c => c = '-' || c = ':' || c = '|' || c = ' '
  | _ => false

/-- The replacement built by the source for one matched table block. -/
def renderTableBlock (header : List Char) (dataRows : List (List Char)) :
    List Char :=
  cs "<b>Table:</b>\n\n" ++
  sepJoin (cs " | ")
    ((extractTableCells header).map fun h => cs "<b>" ++ trimSpace h ++ cs "</b>") ++
  ['\n'] ++ List.replicate 30 '-' ++ ['\n'] ++
  (dataRows.map fun row =>
    if trimSpace row = [] then []
    else sepJoin (cs " | ") ((extractTableCells row).map trimSpace) ++ ['\n']).flatten

def convertTablesLinesF : Nat → List (List Char) → List Char
  | 0, ls => sepJoin ['\n'] ls
  | _ + 1, [] => []
  | _ + 1, [l] => l
  | fuel + 1, l0 :: l1 :: rest =>
    if isTableRowLine l0 && isTableSepLine l1 &&
        (match rest with | r :: _ => isTableRowLine r | [] => false) then
      renderTableBlock l0 (rest.takeWhile isTableRowLine) ++
        convertTablesLinesF fuel (rest.dropWhile isTableRowLine)
    else l0 ++ '\n' :: convertTablesLinesF fuel (l1 :: rest)

def convertTableToTelegramFormat (s : List Char) : List Char :=
  convertTablesLinesF (s.splitOn '\n').length (s.splitOn '\n')

/-! ### decodeHTMLEntities (src/handlers.go 508-546) -/

/-- The named entities of the source's map, in the order of the source
literal (Go iterates this map in unspecified order; the inputs evaluated in
the theorems below make the order irrelevant). -/
def htmlEntityPairs : List (List Char × List Char) :=
  [(cs "&quot;", cs "\""), (cs "&#34;", cs "\""),
   (cs "&apos;", cs "'"), (cs "&#39;", cs "'"),
   (cs "&amp;", cs "&"), (cs "&#38;", cs "&"),
   (cs "&lt;", cs "<"), (cs "&#60;", cs "<"),
   (cs "&gt;", cs ">"), (cs "&#62;", cs ">"),
   (cs "&nbsp;", cs " "), (cs "&#160;", cs " "),
   (cs "&ndash;", cs "–"), (cs "&#8211;", cs "–"),
   (cs "&mdash;", cs "—"), (cs "&#8212;", cs "—")]

/-- strings.ReplaceAll with a nonempty literal pattern. -/
def replaceAllStrF (pat rep : List Char) : Nat → List Char → List Char
  | 0, s => s
  | _ + 1, [] => []
  | fuel + 1, c :: rest =>
    if leadsWith pat (c :: rest) then
      rep ++ replaceAllStrF pat rep fuel ((c :: rest).drop pat.length)
    else c :: replaceAllStrF pat rep fuel rest

def replaceAllStr (pat rep s : List Char) : List Char :=
  replaceAllStrF pat rep s.length s

def isDigitGo (c : Char) : Bool := '0' ≤ c && c ≤ '9'

def digitsVal (l : List Char) : Nat :=
  l.foldl (fun acc c => acc * 10 + (c.toNat - 48)) 0

/-- Go string(rune(n)): a rune that is a surrogate or above 0x10FFFF renders
as the replacement character. -/
def runeStr (n : Nat) : List Char :=
  if n < 0xD800 ∨ (0xE000 ≤ n ∧ n < 0x110000) then [Char.ofNat n]
  else [Char.ofNat 0xFFFD]

/-- Numeric entities: ampersand, hash, one or more digits, semicolon.
strconv.Atoi fails above the int64 range, in which case the match is kept
verbatim (the source returns the match unchanged). -/
def numEntitiesF : Nat → List Char → List Char
  | 0, s => s
  | _ + 1, [] => []
  | fuel + 1, c :: rest =>
    if c = '&' then
      match rest with
      | '#' :: rest2 =>
        let digits := rest2.takeWhile isDigitGo
        let after := rest2.dropWhile isDigitGo
        if digits ≠ [] ∧ after.head? = some ';' then
          (if digitsVal digits < 9223372036854775808 then runeStr (digitsVal digits)
           else cs "&#" ++ digits ++ [';']) ++ numEntitiesF fuel after.tail
        else c :: numEntitiesF fuel rest
      | _ => c :: numEntitiesF fuel rest
    else c :: numEntitiesF fuel rest

def decodeHTMLEntities (s : List Char) : List Char :=
  let t := htmlEntityPairs.foldl (fun acc p => replaceAllStr p.1 p.2 acc) s
  numEntitiesF t.length t

/-- convertToTelegramHTML (src/handlers.go 391-424): the seven passes in
source order. -/
def convertToTelegramHTML (text : List Char) : List Char :=
  let t1 := codeBlocksF text.length text
  let t2 := inlineCodeF t1.length t1
  let t3 := boldStarStarF t2.length t2
  let t4 := pairDelimF '*' (cs "<b>") (cs "</b>") t3.length t3
  let t5 := pairDelimF '_' (cs "<i>") (cs "</i>") t4.length t4
  let t6 := linksF t5.length t5
  let t7 := convertTableToTelegramFormat t6
  decodeHTMLEntities t7

/-! ### Dispatch and fallback orchestration (src/handlers.go 267-388, 643-718)

bot.Send outcomes are modelled by an oracle assigning a result to every
attempt, indexed by the number of sends already performed.  errParse stands
for an error whose text contains "can't parse entities" or "Bad Request";
errOther for any other error.  Each orchestrator returns the trace of send
attempts, tagged by call site. -/

inductive SendRes where
  | ok
  | errParse
  | errOther
deriving DecidableEq

inductive Ev where
  /-- bot.Send of an HTML part inside sendMultipartHTMLMessage's loop. -/
  | partHtml (content : List Char) (r : SendRes)
  /-- the plain-text retry of a part on its last attempt. -/
  | partPlain (content : List Char) (r : SendRes)
  /-- bot.Send of the single HTML message in sendMarkdownMessage. -/
  | singleHtml (content : List Char) (r : SendRes)
  /-- the plain-text retry in sendMarkdownMessage after a parse error. -/
  | singlePlain (content : List Char) (r : SendRes)
  /-- the generic fallback notice at the end of sendMarkdownMessage. -/
  | fallback (r : SendRes)
deriving DecidableEq

def digitChar (n : Nat) : Char := Char.ofNat (48 + n)

def natCharsF : Nat → Nat → List Char
  | 0, _ => []
  | fuel + 1, n =>
    if n < 10 then [digitChar n]
    else natCharsF fuel (n / 10) ++ [digitChar (n % 10)]

/-- Decimal rendering of a number (fmt's %d for the part indices). -/
def natChars (n : Nat) : List Char := natCharsF (n + 1) n

/-- "<b>Part i/N:</b>\n\n". -/
def htmlPartHeader (i total : Nat) : List Char :=
  cs "<b>Part " ++ natChars i ++ ['/'] ++ natChars total ++ cs ":</b>\n\n"

/-- The retry loop for one part of sendMultipartHTMLMessage (lines 352-379):
up to rem attempts of the HTML message; on the last failed attempt one
plain-text attempt of the stripped message.  Returns the events, the next
oracle index, and the success flag. -/
def partAttempts (o : Nat → SendRes) (htmlMsg plainMsg : List Char) :
    Nat → Nat → List Ev × Nat × Bool
  | k, 0 => ([], k, false)
  | k, 1 =>
    let r := o k
    if r = SendRes.ok then ([Ev.partHtml htmlMsg r], k + 1, true)
    else
      let r2 := o (k + 1)
      ([Ev.partHtml htmlMsg r, Ev.partPlain plainMsg r2], k + 2,
       r2 = SendRes.ok)
  | k, rem + 2 =>
    let r := o k
    if r = SendRes.ok then ([Ev.partHtml htmlMsg r], k + 1, true)
    else
      let res := partAttempts o htmlMsg plainMsg (k + 1) (rem + 1)
      (Ev.partHtml htmlMsg r :: res.1, res.2)

/-- The per-part loop of sendMultipartHTMLMessage (lines 340-387): every part
is attempted in order, whether or not earlier parts succeeded. -/
def sendHTMLPartsLoop (o : Nat → SendRes) (total : Nat) :
    Nat → Nat → List (List Char) → List Ev
  | _, _, [] => []
  | k, idx, p :: ps =>
    let header := if 1 < total then htmlPartHeader idx total else []
    let res := partAttempts o (header ++ p) (stripHTMLTags (header ++ p)) k 3
    res.1 ++ sendHTMLPartsLoop o total res.2.1 (idx + 1) ps

/-- sendMultipartHTMLMessage (src/handlers.go 321-388), maxPartSize = 4000. -/
def sendMultipartHTMLMessage (o : Nat → SendRes) (text : List Char) : List Ev :=
  let parts := splitHTMLMessage text 4000
  sendHTMLPartsLoop o parts.length 0 1 parts

/-- The text of the generic fallback notice (line 316). -/
def fallbackNotice : List Char :=
  cs "I received a response but couldn't display it properly. Please try again."

/-- The retry loop of sendMarkdownMessage (lines 286-317): HTML attempts with
a plain-text sub-attempt after a parse error; after all retries fail, one
send of the generic fallback notice whose own result is discarded. -/
def mdRetry (o : Nat → SendRes) (processed : List Char) :
    Nat → Nat → List Ev
  | k, 0 => [Ev.fallback (o k)]
  | k, rem + 1 =>
    let r := o k
    if r = SendRes.ok then [Ev.singleHtml processed r]
    else if r = SendRes.errParse then
      let r2 := o (k + 1)
      if r2 = SendRes.ok then
        [Ev.singleHtml processed r, Ev.singlePlain (stripHTMLTags processed) r2]
      else
        Ev.singleHtml processed r ::
          Ev.singlePlain (stripHTMLTags processed) r2 ::
            mdRetry o processed (k + 2) rem
    else Ev.singleHtml processed r :: mdRetry o processed (k + 1) rem

/-- sendMarkdownMessage (src/handlers.go 267-318).  The source first applies
ensureUTF8, which is the identity on valid strings (theorem
ensureUTF8_valid_id below); the char-level text stands for an already valid
string, so the model starts at convertToTelegramHTML. -/
def sendMarkdownMessage (o : Nat → SendRes) (text : List Char) : List Ev :=
  let processed := convertToTelegramHTML text
  if 4000 < processed.length then sendMultipartHTMLMessage o processed
  else mdRetry o processed 0 3

/-! ### sendMessage and sendMultipartMessage, byte level
(src/handlers.go 643-718) -/

inductive EvB where
  /-- bot.Send of the single message in sendMessage. -/
  | single (content : List Nat) (r : SendRes)
  /-- bot.Send of one part in sendMultipartMessage's loop. -/
  | partMsg (content : List Nat) (r : SendRes)
deriving DecidableEq

/-- "Part i/N:\n\n" as bytes. -/
def plainPartHeaderB (i total : Nat) : List Nat :=
  (cs "Part " ++ natChars i ++ ['/'] ++ natChars total ++ cs ":\n\n").map
    Char.toNat

/-- Retry loop for one plain part (lines 698-710): up to rem attempts, no
degraded mode.  Returns the events and the next oracle index. -/
def partAttemptsB (o : Nat → SendRes) (m : List Nat) :
    Nat → Nat → List EvB × Nat
  | k, 0 => ([], k)
  | k, rem + 1 =>
    let r := o k
    if r = SendRes.ok then ([EvB.partMsg m r], k + 1)
    else
      let res := partAttemptsB o m (k + 1) rem
      (EvB.partMsg m r :: res.1, res.2)

def sendPlainPartsLoop (o : Nat → SendRes) (total : Nat) :
    Nat → Nat → List (List Nat) → List EvB
  | _, _, [] => []
  | k, idx, p :: ps =>
    let header := if 1 < total then plainPartHeaderB idx total else []
    let res := partAttemptsB o (header ++ p) k 3
    res.1 ++ sendPlainPartsLoop o total res.2 (idx + 1) ps

/-- sendMultipartMessage (src/handlers.go 672-718), maxPartSize = 4000. -/
def sendMultipartMessageB (o : Nat → SendRes) (text : List Nat) : List EvB :=
  let parts := splitMessageB text 4000
  sendPlainPartsLoop o parts.length 0 1 parts

/-- The single-message retry loop of sendMessage (lines 655-668): up to rem
attempts; after exhaustion only a log line, no further send. -/
def smRetryB (o : Nat → SendRes) (t : List Nat) : Nat → Nat → List EvB
  | _, 0 => []
  | k, rem + 1 =>
    let r := o k
    if r = SendRes.ok then [EvB.single t r]
    else EvB.single t r :: smRetryB o t (k + 1) rem

/-- sendMessage (src/handlers.go 643-669). -/
def sendMessageB (o : Nat → SendRes) (text : List Nat) : List EvB :=
  let t := ensureUTF8 text
  if 4000 < t.length then sendMultipartMessageB o t
  else smRetryB o t 0 3

/-! ### Per-user settings and the command handlers
(src/unnamed/part_003 getUser/updateUser, src/handlers.go 84-152)

Go maps are modelled as association lists: insert replaces the value of an
existing key in place or appends a new binding; the properties stated below
are order-independent. -/

def lookupA [DecidableEq κ] (k : κ) : List (κ × ν) → Option ν
  | [] => none
  | (k', v) :: rest => if k = k' then some v else lookupA k rest

def insertA [DecidableEq κ] (k : κ) (v : ν) : List (κ × ν) → List (κ × ν)
  | [] => [(k, v)]
  | (k', v') :: rest =>
    if k = k' then (k, v) :: rest else (k', v') :: insertA k v rest

def eraseA [DecidableEq κ] (k : κ) (m : List (κ × ν)) : List (κ × ν) :=
  m.filter fun p => p.1 ≠ k

/-- The User structure (src/unnamed/part_003 lines 22-26). -/
structure UserM where
  openRouterToken : List Char
  currentModel : List Char
  models : List (List Char × List Char)
deriving DecidableEq

/-- defaultModels (src/unnamed/part_003 lines 45-52), in source-literal
order (Go map order is unspecified; only membership matters below). -/
def defaultModels : List (List Char × List Char) :=
  [(cs "gpt-3.5-turbo", cs "openai/gpt-3.5-turbo"),
   (cs "gpt-4", cs "openai/gpt-4"),
   (cs "claude-instant", cs "anthropic/claude-instant-v1"),
   (cs "claude-2", cs "anthropic/claude-2"),
   (cs "llama-2-70b", cs "meta-llama/llama-2-70b-chat"),
   (cs "mistral-7b-instruct", cs "mistralai/mistral-7b-instruct-v0.1")]

/-- The user record getUser creates for a previously unseen user
(src/unnamed/part_003 lines 161-172). -/
def newUser : UserM :=
  { openRouterToken := [], currentModel := cs "gpt-3.5-turbo",
    models := defaultModels }

/-- strings.SplitN(args, " ", 2): split around the first space. -/
def splitN2 (l : List Char) : List (List Char) :=
  let pre := l.takeWhile (· ≠ ' ')
  let post := l.dropWhile (· ≠ ' ')
  match post with
  | [] => [l]
  | _ :: t => [pre, t]

/-- The model-management commands, with their argument strings. -/
inductive UserOp where
  | settoken (args : List Char)
  | setmodel (args : List Char)
  | addmodel (args : List Char)
  | removemodel (args : List Char)

/-- One command-handler case of handleMessageWithContext (src/handlers.go
84-152), restricted to its effect on the stored user record (message sends
and early returns with no updateUser leave the record unchanged). -/
def applyUserOp (u : UserM) : UserOp → UserM
  | UserOp.settoken args =>
    if args = [] then u
    else { u with openRouterToken := trimSpace args }
  | UserOp.setmodel args =>
    if args = [] then u
    else
      let modelName := trimSpace args
      match lookupA modelName u.models with
      | none => u
      | some _ => { u with currentModel := modelName }
  | UserOp.addmodel args =>
    let ps := splitN2 args
    if ps.length < 2 then u
    else
      let name := trimSpace (ps.getD 0 [])
      let id := trimSpace (ps.getD 1 [])
      if name = [] ∨ id = [] then u
      else { u with models := insertA name id u.models }
  | UserOp.removemodel args =>
    if args = [] then u
    else
      let modelName := trimSpace args
      match lookupA modelName u.models with
      | none => u
      | some _ =>
        { u with
          currentModel := if u.currentModel = modelName then [] else u.currentModel,
          models := eraseA modelName u.models }

def applyUserOps (ops : List UserOp) (u : UserM) : UserM :=
  ops.foldl applyUserOp u

/-- The invariant of claim C9: the current model is unset or present in the
model map. -/
def userInv (u : UserM) : Prop :=
  u.currentModel = [] ∨ (lookupA u.currentModel u.models).isSome = true

/-! ### Authorization (src/handlers.go 20-52, src/unnamed/part_003 13-19)

config.AuthorizedIDs is a map userID -> bool; isAuthorized is the only
writer to it in the source.  authStep models one isAuthorized call: its
resulting map and return value. -/

def authStep (pw : List Char) (auth : List (Int × Bool)) (uid : Int)
    (msgText : List Char) : List (Int × Bool) × Bool :=
  match lookupA uid auth with
  | some true => (auth, true)
  | _ =>
    if msgText = pw then (insertA uid true auth, true) else (auth, false)

/-- A sequence of isAuthorized calls (userID, message text), folded over the
authorization map. -/
def runAuth (pw : List Char) (auth : List (Int × Bool)) :
    List (Int × List Char) → List (Int × Bool)
  | [] => auth
  | (uid, msg) :: rest => runAuth pw (authStep pw auth uid msg).1 rest

/-! ### Spec-side definitions used to state the claims -/

/-- Every '<' in the fragment is followed by a later '>' (no unterminated
tag start).  Under this condition the two tag regexps cannot match across a
concatenation boundary, which the repair theorem below relies on. -/
def noDanglingLt : List Char → Bool
  | [] => true
  | c :: rest => (if c = '<' then rest.contains '>' else true) && noDanglingLt rest

/-- The search window of the split-point search: (M/2, M]. -/
abbrev inWindow (M i : Nat) : Prop := M / 2 < i ∧ i ≤ M

/-- A blank-line boundary at index i: a newline preceded by a newline. -/
abbrev blankBoundary (text : List Char) (i : Nat) : Prop :=
  text.getD i c0 = '\n' ∧ 0 < i ∧ text.getD (i - 1) c0 = '\n'

/-- A single line boundary at index i. -/
abbrev lineBoundary (text : List Char) (i : Nat) : Prop := text.getD i c0 = '\n'

/-- A sentence character ('.', '?' or '!') at index i. -/
abbrev sentenceChar (text : List Char) (i : Nat) : Prop :=
  i < text.length ∧ (text.getD i c0 = '.' ∨ text.getD i c0 = '?' ∨
    text.getD i c0 = '!')

/-- A word boundary (space) at index i. -/
abbrev wordBoundary (text : List Char) (i : Nat) : Prop := text.getD i c0 = ' '

/-- Some index of the window satisfies P. -/
def existsInWindow (M : Nat) (P : Nat → Prop) [DecidablePred P] : Bool :=
  (List.range (M + 1)).any fun i => decide (inWindow M i ∧ P i)

/-- Modelled from the spec, as amended by claim C6: the split point for text
longer than M is chosen by a priority search over the window (M/2, M], first
match wins, taking the largest matching index: a blank line (cut after the
newline), a line break (cut after the newline), a sentence character - if
followed by a space the cut includes the space (index + 2), otherwise the
cut is right after the character (index + 1) -, a space (cut after it), and
otherwise exactly M. -/
def splitPointSpec (text : List Char) (M : Nat) : Nat :=
  if text.length ≤ M then text.length
  else if existsInWindow M (blankBoundary text) then
    Nat.findGreatest (fun i => inWindow M i ∧ blankBoundary text i) M + 1
  else if existsInWindow M (lineBoundary text) then
    Nat.findGreatest (fun i => inWindow M i ∧ lineBoundary text i) M + 1
  else if existsInWindow M (sentenceChar text) then
    (fun g =>
      if g + 1 < text.length ∧ text.getD (g + 1) c0 = ' ' then g + 2 else g + 1)
      (Nat.findGreatest (fun i => inWindow M i ∧ sentenceChar text i) M)
  else if existsInWindow M (wordBoundary text) then
    Nat.findGreatest (fun i => inWindow M i ∧ wordBoundary text i) M + 1
  else M

/-- A rune value Go will re-encode to its own bytes: in range and not a
surrogate. -/
def validScalar (r : Nat) : Prop :=
  r < 0x110000 ∧ ¬(0xD800 ≤ r ∧ r ≤ 0xDFFF)

def isFallbackEv : Ev → Bool
  | Ev.fallback _ => true
  | _ => false

def isPartHtmlEv : Ev → Bool
  | Ev.partHtml _ _ => true
  | _ => false

def isPartPlainEv : Ev → Bool
  | Ev.partPlain _ _ => true
  | _ => false

/-! ### Example inputs used in counterexamples -/

/-- A 4004-byte HTML fragment whose first part, after repair, is not
stack-balanced: a stray closing tag followed by an opening tag, padding, and
a paragraph break placed so that the cut falls right after it. -/
def exC2 : List Char := cs "</b><b>" ++ List.replicate 3992 'a' ++ cs "\n\nxyz"

/-- A 4004-byte plain paragraph with a blank line at the cut position,
splitting into two parts. -/
def exC5 : List Char := List.replicate 3999 'a' ++ cs "\n\nbcd"

/-! ## Theorems

### scanDesc and findSplitPoint -/

theorem scanDesc_some_bound {f : Nat → Option Nat} :
    ∀ n i r, n ≤ i → scanDesc f i n = some r →
      ∃ j, i - n < j ∧ j ≤ i ∧ f j = some r := by
  intro n
  induction n with
  | zero => intro i r _ h; simp [scanDesc] at h
  | succ n ih =>
    intro i r hn h
    rw [scanDesc] at h
    cases hf : f i with
    | some v =>
      rw [hf] at h
      exact ⟨i, by omega, Nat.le_refl i, by rw [hf]; exact h⟩
    | none =>
      rw [hf] at h
      obtain ⟨j, h1, h2, h3⟩ := ih (i - 1) r (by omega) h
      exact ⟨j, by omega, by omega, h3⟩

theorem scanDesc_eq_none {f : Nat → Option Nat} :
    ∀ n i, n ≤ i → (∀ j, i - n < j → j ≤ i → f j = none) → scanDesc f i n = none := by
  intro n
  induction n with
  | zero => intro i _ _; rfl
  | succ n ih =>
    intro i hn h
    rw [scanDesc, h i (by omega) (Nat.le_refl i)]
    exact ih (i - 1) (by omega) fun j h1 h2 => h j (by omega) (by omega)

theorem scanDesc_eq_some_of {f : Nat → Option Nat} :
    ∀ n i j r, n ≤ i → i - n < j → j ≤ i → f j = some r →
      (∀ j', j < j' → j' ≤ i → f j' = none) → scanDesc f i n = some r := by
  intro n
  induction n with
  | zero => intro i j r _ h1 h2 _ _; exact absurd h2 (by omega)
  | succ n ih =>
    intro i j r hn h1 h2 h3 h4
    rw [scanDesc]
    rcases Nat.lt_or_ge j i with hji | hji
    · rw [h4 i hji (Nat.le_refl i)]
      exact ih (i - 1) j r (by omega) (by omega) (by omega) h3
        fun j' p1 p2 => h4 j' p1 (by omega)
    · have : j = i := by omega
      subst this
      rw [h3]

/-- Case analysis on the value of findSplitPointA for text longer than M:
the result is j + 1 for some j in the window (M/2, M], or j + 2 for such a j
with j + 1 < length (sentence boundary with following space), or the
fallback M. -/
theorem findSplitPointA_cases [DecidableEq α] {z nlc spc dotc qmc exc : α}
    {text : List α} {M : Nat} (hM : M < text.length)
    (motive : Nat → Prop)
    (hcut : ∀ j, M / 2 < j → j ≤ M → motive (j + 1))
    (hsp : ∀ j, M / 2 < j → j ≤ M → j + 1 < text.length → motive (j + 2))
    (hfb : motive M) :
    motive (findSplitPointA z nlc spc dotc qmc exc text M) := by
  rw [findSplitPointA, if_neg (by omega)]
  split
  · rename_i r heq
    obtain ⟨j, hj1, hj2, hfj⟩ := scanDesc_some_bound _ M r (by omega) heq
    split at hfj
    · cases hfj; exact hcut j (by omega) hj2
    · cases hfj
  split
  · rename_i r heq
    obtain ⟨j, hj1, hj2, hfj⟩ := scanDesc_some_bound _ M r (by omega) heq
    split at hfj
    · cases hfj; exact hcut j (by omega) hj2
    · cases hfj
  split
  · rename_i r heq
    obtain ⟨j, hj1, hj2, hfj⟩ := scanDesc_some_bound _ M r (by omega) heq
    split at hfj
    · rename_i hP
      cases hfj
      split
      · rename_i hQ
        exact hsp j (by omega) hj2 hQ.1
      · exact hcut j (by omega) hj2
    · cases hfj
  split
  · rename_i r heq
    obtain ⟨j, hj1, hj2, hfj⟩ := scanDesc_some_bound _ M r (by omega) heq
    split at hfj
    · cases hfj; exact hcut j (by omega) hj2
    · cases hfj
  exact hfb

theorem findSplitPointA_bounds [DecidableEq α] {z nlc spc dotc qmc exc : α}
    {text : List α} {M : Nat} (hM : M < text.length) :
    findSplitPointA z nlc spc dotc qmc exc text M ≤ M + 2 ∧
    findSplitPointA z nlc spc dotc qmc exc text M ≤ text.length ∧
    (1 ≤ M → 1 ≤ findSplitPointA z nlc spc dotc qmc exc text M) := by
  refine findSplitPointA_cases hM
    (fun r => r ≤ M + 2 ∧ r ≤ text.length ∧ (1 ≤ M → 1 ≤ r)) ?_ ?_ ?_
  · intro j h1 h2; exact ⟨by omega, by omega, by omega⟩
  · intro j h1 h2 h3; exact ⟨by omega, by omega, by omega⟩
  · exact ⟨by omega, by omega, by omega⟩

/-! ### The splitting loops: concatenation and part-size bounds -/

theorem splitPartsGoA_flatten [DecidableEq α] (z nlc spc dotc qmc exc : α)
    (M : Nat) :
    ∀ fuel rem, (splitPartsGoA z nlc spc dotc qmc exc M fuel rem).flatten = rem := by
  intro fuel
  induction fuel with
  | zero =>
    intro rem
    rw [splitPartsGoA]
    split
    · simp
    · rename_i h
      have : rem = [] := by
        cases rem with
        | nil => rfl
        | cons a l => simp at h
      simp [this]
  | succ fuel ih =>
    intro rem
    rw [splitPartsGoA]
    split
    · simp [ih]
    split
    · simp
    · rename_i _ h
      have : rem = [] := by
        cases rem with
        | nil => rfl
        | cons a l => simp at h
      simp [this]

theorem splitPartsGoA_parts_le [DecidableEq α] (z nlc spc dotc qmc exc : α)
    (M : Nat) (hM : 1 ≤ M) :
    ∀ fuel rem, rem.length ≤ fuel →
      ∀ p ∈ splitPartsGoA z nlc spc dotc qmc exc M fuel rem,
        p.length ≤ M + 2 := by
  intro fuel
  induction fuel with
  | zero =>
    intro rem hlen p hp
    rw [splitPartsGoA] at hp
    have : rem = [] := List.length_eq_zero.mp (by omega)
    subst this
    simp at hp
  | succ fuel ih =>
    intro rem hlen p hp
    rw [splitPartsGoA] at hp
    split at hp
    · rename_i hbig
      obtain ⟨hb1, hb2, hb3⟩ :=
        @findSplitPointA_bounds _ _ z nlc spc dotc qmc exc rem M (by omega)
      rcases List.mem_cons.mp hp with hp | hp
      · subst hp
        simp only [List.length_take]
        omega
      · exact ih (rem.drop _) (by simp; omega) p hp
    · split at hp
      · rcases List.mem_cons.mp hp with hp | hp
        · subst hp; rename_i hsmall _; omega
        · simp at hp
      · simp at hp

/-- splitHTMLGo produces exactly the parts of the plain splitting loop, each
with the closing tags added by the repair appended (the final part, which the
source does not repair, gets the empty suffix). -/
theorem splitHTMLGo_decomp (M : Nat) :
    ∀ fuel rem, ∃ exts : List (List Char),
      splitHTMLGo M fuel rem =
        List.zipWith (fun b e => b ++ e)
          (splitPartsGoA c0 '\n' ' ' '.' '?' '!' M fuel rem) exts ∧
      exts.length = (splitPartsGoA c0 '\n' ' ' '.' '?' '!' M fuel rem).length ∧
      ∀ i, i < exts.length →
        exts.getD i [] = appendedClosers
          ((splitPartsGoA c0 '\n' ' ' '.' '?' '!' M fuel rem).getD i []) ∨
        (i + 1 = exts.length ∧ exts.getD i [] = []) := by
  intro fuel
  induction fuel with
  | zero =>
    intro rem
    rw [splitHTMLGo, splitPartsGoA]
    split
    · refine ⟨[[]], by simp, by simp, ?_⟩
      intro i hi
      cases i with
      | zero => exact Or.inr ⟨rfl, rfl⟩
      | succ n => exact absurd hi (by simp)
    · exact ⟨[], by simp, by simp, fun i hi => absurd hi (by simp)⟩
  | succ fuel ih =>
    intro rem
    rw [splitHTMLGo, splitPartsGoA]
    simp only [findSplitPoint]
    split
    · obtain ⟨exts, he1, he2, he3⟩ :=
        ih (rem.drop (findSplitPointA c0 '\n' ' ' '.' '?' '!' rem M))
      refine ⟨appendedClosers
          (rem.take (findSplitPointA c0 '\n' ' ' '.' '?' '!' rem M)) :: exts,
        ?_, by simp [he2], ?_⟩
      · simp only [List.zipWith_cons_cons]
        rw [← he1]
        rfl
      · intro i hi
        cases i with
        | zero => exact Or.inl rfl
        | succ n =>
          rw [List.length_cons] at hi
          rcases he3 n (by omega) with h | h
          · exact Or.inl h
          · exact Or.inr ⟨by rw [List.length_cons, ← h.1], h.2⟩
    · split
      · refine ⟨[[]], by simp, by simp, ?_⟩
        intro i hi
        cases i with
        | zero => exact Or.inr ⟨rfl, rfl⟩
        | succ n => exact absurd hi (by simp)
      · exact ⟨[], by simp, by simp, fun i hi => absurd hi (by simp)⟩

/-! ### Claim C1 -/

/-- Claim C1 as stated is false: with maximum part size M = 4, the input
"abcd. x" (a sentence boundary at the top of the search window) yields a
first part "abcd. " of length 6 = M + 2 > M. -/
theorem c1_counterexample :
    ¬ (∀ p ∈ splitMessage (cs "abcd. x") 4, p.length ≤ 4) := by decide

/-- Claim C1, amended: every part body produced by the splitting loops,
before the injected header and before tag repair, has length at most M + 2
(the sentence-boundary cut can land up to two characters past M).  The HTML
splitter emits exactly the plain splitter's parts, each extended by
precisely the closing tags ensureHTMLTagsClosed appends to that body (an
empty extension is possible only for the final part, the remainder the
source appends without repair), so every HTML part is a body of length at
most M + 2 followed by the repair's closing tags. -/
theorem c1_part_size_bound (text : List Char) (M : Nat) (hM : 1 ≤ M) :
    (∀ p ∈ splitMessage text M, p.length ≤ M + 2) ∧
    ∃ exts : List (List Char),
      splitHTMLMessage text M =
        List.zipWith (fun b e => b ++ e) (splitMessage text M) exts ∧
      exts.length = (splitMessage text M).length ∧
      ∀ i, i < exts.length →
        exts.getD i [] = appendedClosers ((splitMessage text M).getD i []) ∨
        (i + 1 = exts.length ∧ exts.getD i [] = []) := by
  refine ⟨splitPartsGoA_parts_le _ _ _ _ _ _ _ hM text.length text
    (Nat.le_refl _), ?_⟩
  obtain ⟨exts, he1, he2, he3⟩ := splitHTMLGo_decomp M text.length text
  exact ⟨exts, he1, he2, he3⟩

/-- Witness for c1_part_size_bound at M = 4 and the counterexample input. -/
theorem c1_part_size_bound_witness :
    1 ≤ 4 ∧
    ((∀ p ∈ splitMessage (cs "abcd. x") 4, p.length ≤ 4 + 2) ∧
     ∃ exts : List (List Char),
       splitHTMLMessage (cs "abcd. x") 4 =
         List.zipWith (fun b e => b ++ e) (splitMessage (cs "abcd. x") 4) exts ∧
       exts.length = (splitMessage (cs "abcd. x") 4).length ∧
       ∀ i, i < exts.length →
         exts.getD i [] =
           appendedClosers ((splitMessage (cs "abcd. x") 4).getD i []) ∨
         (i + 1 = exts.length ∧ exts.getD i [] = [])) :=
  ⟨by decide, c1_part_size_bound (cs "abcd. x") 4 (by decide)⟩

/-! ### Claim C3 -/

/-- Claim C3: the ordered concatenation of the part bodies reconstructs the
input exactly.  The plain parts concatenate to the text; the HTML splitter
emits one part per plain part (no part is dropped: the extension list has
the same length as the parts list, so the zipWith covers every part), each
part being the corresponding plain body with markup appended, and those
bodies concatenate to the text. -/
theorem c3_concat_roundtrip (text : List Char) (M : Nat)
    (_hlong : M < text.length) :
    (splitMessage text M).flatten = text ∧
    ∃ exts : List (List Char),
      splitHTMLMessage text M =
        List.zipWith (fun b e => b ++ e) (splitMessage text M) exts ∧
      exts.length = (splitMessage text M).length ∧
      (splitHTMLMessage text M).length = (splitMessage text M).length := by
  refine ⟨splitPartsGoA_flatten _ _ _ _ _ _ _ _ _, ?_⟩
  obtain ⟨exts, he1, he2, _⟩ := splitHTMLGo_decomp M text.length text
  refine ⟨exts, he1, he2, ?_⟩
  rw [splitHTMLMessage, he1, List.length_zipWith, he2]
  exact Nat.min_self _

/-- Witness for c3_concat_roundtrip on a 7-char input with M = 4. -/
theorem c3_concat_roundtrip_witness :
    4 < (cs "abcd. x").length ∧
    ((splitMessage (cs "abcd. x") 4).flatten = cs "abcd. x" ∧
     ∃ exts : List (List Char),
       splitHTMLMessage (cs "abcd. x") 4 =
         List.zipWith (fun b e => b ++ e) (splitMessage (cs "abcd. x") 4) exts ∧
       exts.length = (splitMessage (cs "abcd. x") 4).length ∧
       (splitHTMLMessage (cs "abcd. x") 4).length =
         (splitMessage (cs "abcd. x") 4).length) :=
  ⟨by decide, c3_concat_roundtrip (cs "abcd. x") 4 (by decide)⟩

/-! ### Claim C6: the split-point search against its declarative description -/

theorem existsInWindow_iff {M : Nat} {P : Nat → Prop} [DecidablePred P] :
    existsInWindow M P = true ↔ ∃ i, inWindow M i ∧ P i := by
  constructor
  · intro h
    simp only [existsInWindow, List.any_eq_true, decide_eq_true_eq] at h
    obtain ⟨i, _, h2⟩ := h
    exact ⟨i, h2⟩
  · rintro ⟨i, hw, hp⟩
    simp only [existsInWindow, List.any_eq_true, decide_eq_true_eq]
    exact ⟨i, List.mem_range.mpr (by have := hw.2; omega), hw, hp⟩

theorem scanDesc_level_some {M : Nat} {P : Nat → Prop} [DecidablePred P]
    {v : Nat → Nat} (hex : ∃ i, inWindow M i ∧ P i) :
    scanDesc (fun i => if P i then some (v i) else none) M (M - M / 2) =
      some (v (Nat.findGreatest (fun i => inWindow M i ∧ P i) M)) := by
  obtain ⟨i0, hw, hp⟩ := hex
  have hg : inWindow M (Nat.findGreatest (fun i => inWindow M i ∧ P i) M) ∧
      P (Nat.findGreatest (fun i => inWindow M i ∧ P i) M) :=
    Nat.findGreatest_spec (P := fun i => inWindow M i ∧ P i) hw.2 ⟨hw, hp⟩
  apply scanDesc_eq_some_of _ M (Nat.findGreatest (fun i => inWindow M i ∧ P i) M)
  · omega
  · have := hg.1.1; omega
  · exact hg.1.2
  · exact if_pos hg.2
  · intro j' p1 p2
    refine if_neg fun hpj => ?_
    exact Nat.findGreatest_is_greatest p1 p2 ⟨⟨by have := hg.1.1; omega, p2⟩, hpj⟩

theorem scanDesc_level_none {M : Nat} {P : Nat → Prop} [DecidablePred P]
    {v : Nat → Nat} (hnex : ¬ ∃ i, inWindow M i ∧ P i) :
    scanDesc (fun i => if P i then some (v i) else none) M (M - M / 2) = none := by
  apply scanDesc_eq_none _ M (by omega)
  intro j h1 h2
  exact if_neg fun hp => hnex ⟨j, ⟨by omega, h2⟩, hp⟩

/-- Claim C6, amended: for text longer than M, findSplitPoint equals the
declarative priority search splitPointSpec.  In particular a '.', '?' or '!'
in the window is used as a split point even when it is not followed by a
space (the cut is then placed immediately after the character), which is
where the claim as stated diverges from the code. -/
theorem c6_split_point_spec (text : List Char) (M : Nat) (h : M < text.length) :
    findSplitPoint text M = splitPointSpec text M := by
  rw [findSplitPoint, findSplitPointA, splitPointSpec,
    if_neg (by omega : ¬ text.length ≤ M), if_neg (by omega : ¬ text.length ≤ M)]
  by_cases h1 : ∃ i, inWindow M i ∧ blankBoundary text i
  · rw [scanDesc_level_some h1, if_pos (existsInWindow_iff.mpr h1)]
  rw [scanDesc_level_none h1,
    if_neg (fun hh => h1 (existsInWindow_iff.mp hh))]
  by_cases h2 : ∃ i, inWindow M i ∧ lineBoundary text i
  · rw [scanDesc_level_some h2, if_pos (existsInWindow_iff.mpr h2)]
  rw [scanDesc_level_none h2,
    if_neg (fun hh => h2 (existsInWindow_iff.mp hh))]
  by_cases h3 : ∃ i, inWindow M i ∧ sentenceChar text i
  · rw [scanDesc_level_some h3, if_pos (existsInWindow_iff.mpr h3)]
  rw [scanDesc_level_none h3,
    if_neg (fun hh => h3 (existsInWindow_iff.mp hh))]
  by_cases h4 : ∃ i, inWindow M i ∧ wordBoundary text i
  · rw [scanDesc_level_some h4, if_pos (existsInWindow_iff.mpr h4)]
  rw [scanDesc_level_none h4,
    if_neg (fun hh => h4 (existsInWindow_iff.mp hh))]

/-- Witness for c6_split_point_spec at a concrete input. -/
theorem c6_split_point_spec_witness :
    4 < (cs "ab c.xyz").length ∧
    findSplitPoint (cs "ab c.xyz") 4 = splitPointSpec (cs "ab c.xyz") 4 :=
  ⟨by decide, c6_split_point_spec (cs "ab c.xyz") 4 (by decide)⟩

/-- Claim C6 as stated is false on "ab c.xyz" with M = 4: the window (2, 4]
holds the characters 'c' and '.', so it has no blank line, no line break,
no space, and no sentence character followed by a space; by the claim the
cut would fall exactly at M = 4, but the code cuts at 5, right after the
'.' that is not followed by a space. -/
theorem c6_counterexample :
    findSplitPoint (cs "ab c.xyz") 4 = 5 ∧
    findSplitPoint (cs "ab c.xyz") 4 ≠ 4 ∧
    (cs "ab c.xyz").getD 3 c0 = 'c' ∧
    (cs "ab c.xyz").getD 4 c0 = '.' ∧
    (cs "ab c.xyz").getD 5 c0 = 'x' := by decide

/-! ### Claim C2: tag-scan lemmas -/

theorem takeLetters_decomp : ∀ s : List Char, (takeLetters s).1 ++ (takeLetters s).2 = s := by
  intro s
  induction s with
  | nil => rfl
  | cons c rest ih =>
    rw [takeLetters]
    split
    · simpa using ih
    · rfl

theorem takeLetters_snd_suffix (s : List Char) : (takeLetters s).2 <:+ s :=
  ⟨(takeLetters s).1, takeLetters_decomp s⟩

theorem takeLetters_snd_length (s : List Char) :
    (takeLetters s).2.length ≤ s.length :=
  (takeLetters_snd_suffix s).length_le

theorem takeLetters_fst_lower :
    ∀ s : List Char, ∀ c ∈ (takeLetters s).1, isLowerAZ c = true := by
  intro s
  induction s with
  | nil => intro c hc; simp [takeLetters] at hc
  | cons d rest ih =>
    intro c hc
    rw [takeLetters] at hc
    split at hc
    · rcases List.mem_cons.mp hc with rfl | hc
      · assumption
      · exact ih c hc
    · simp at hc

theorem takeLetters_snd_not_lower :
    ∀ s d t, (takeLetters s).2 = d :: t → isLowerAZ d = false := by
  intro s
  induction s with
  | nil => intro d t h; simp [takeLetters] at h
  | cons c rest ih =>
    intro d t h
    rw [takeLetters] at h
    split at h
    · exact ih d t h
    · rename_i hc
      cases h
      simpa using hc

theorem takeLetters_append_of_snd_ne :
    ∀ s u : List Char, (takeLetters s).2 ≠ [] →
      takeLetters (s ++ u) = ((takeLetters s).1, (takeLetters s).2 ++ u) := by
  intro s
  induction s with
  | nil => intro u h; exact absurd rfl h
  | cons c rest ih =>
    intro u h
    by_cases hc : isLowerAZ c = true
    · have h' : (takeLetters rest).2 ≠ [] := by
        rw [takeLetters, if_pos hc] at h; exact h
      simp only [List.cons_append, takeLetters, if_pos hc, ih u h']
      rw [show rest.append u = rest ++ u from rfl, ih u h']
    · simp only [List.cons_append, takeLetters, if_neg hc]
      rfl

theorem takeLetters_all_lower_append :
    ∀ l : List Char, ∀ d t, (∀ c ∈ l, isLowerAZ c = true) → isLowerAZ d = false →
      takeLetters (l ++ d :: t) = (l, d :: t) := by
  intro l
  induction l with
  | nil => intro d t _ hd; rw [List.nil_append, takeLetters, if_neg (by simp [hd])]
  | cons c rest ih =>
    intro d t hl hd
    rw [List.cons_append, takeLetters,
      if_pos (hl c (List.mem_cons_self c rest)),
      ih d t (fun x hx => hl x (List.mem_cons_of_mem c hx)) hd]

theorem dropThroughGt_some :
    ∀ s r : List Char, dropThroughGt s = some r → r <:+ s ∧ r.length < s.length := by
  intro s
  induction s with
  | nil => intro r h; simp [dropThroughGt] at h
  | cons c rest ih =>
    intro r h
    rw [dropThroughGt] at h
    split at h
    · cases h
      exact ⟨List.suffix_cons _ _, by simp⟩
    · obtain ⟨h1, h2⟩ := ih r h
      exact ⟨h1.trans (List.suffix_cons c rest), by simp; omega⟩

theorem dropThroughGt_none_iff :
    ∀ s : List Char, dropThroughGt s = none ↔ '>' ∉ s := by
  intro s
  induction s with
  | nil => simp [dropThroughGt]
  | cons c rest ih =>
    rw [dropThroughGt]
    split
    · rename_i hc
      subst hc
      simp
    · rename_i hc
      rw [ih]
      simp only [List.mem_cons, not_or]
      constructor
      · intro h
        exact ⟨fun he => hc he.symm, h⟩
      · intro h
        exact h.2

theorem dropThroughGt_append_some :
    ∀ s u r : List Char, dropThroughGt s = some r →
      dropThroughGt (s ++ u) = some (r ++ u) := by
  intro s
  induction s with
  | nil => intro u r h; simp [dropThroughGt] at h
  | cons c rest ih =>
    intro u r h
    rw [dropThroughGt] at h
    rw [List.cons_append, dropThroughGt]
    split at h
    · cases h; rename_i hc; rw [if_pos hc]
    · rename_i hc; rw [if_neg hc]; exact ih u r h

theorem dropThroughGt_of_contains {s : List Char} (h : '>' ∈ s) :
    ∃ r, dropThroughGt s = some r := by
  cases hd : dropThroughGt s with
  | some r => exact ⟨r, rfl⟩
  | none => exact absurd h ((dropThroughGt_none_iff s).mp hd)

theorem openTagsF_nil : ∀ fuel, openTagsF fuel [] = [] := by
  intro fuel; cases fuel <;> rfl

theorem closeTagsF_nil : ∀ fuel, closeTagsF fuel [] = [] := by
  intro fuel; cases fuel <;> rfl

theorem tagTokensF_nil : ∀ fuel, tagTokensF fuel [] = [] := by
  intro fuel; cases fuel <;> rfl

theorem openTagsF_congr :
    ∀ f1 {f2 : Nat} {s : List Char}, s.length ≤ f1 → s.length ≤ f2 →
      openTagsF f1 s = openTagsF f2 s := by
  intro f1
  induction f1 with
  | zero =>
    intro f2 s h1 _
    have : s = [] := List.length_eq_zero.mp (by omega)
    subst this
    rw [openTagsF_nil, openTagsF_nil]
  | succ f1 ih =>
    intro f2 s h1 h2
    cases s with
    | nil => rw [openTagsF_nil, openTagsF_nil]
    | cons c rest =>
      cases f2 with
      | zero => simp at h2
      | succ g =>
        rw [openTagsF, openTagsF]
        simp only [List.length_cons] at h1 h2
        by_cases hc : c = '<'
        · rw [if_pos hc, if_pos hc]
          cases htl : takeLetters rest with
          | mk nm r1 =>
            cases nm with
            | nil =>
              simp only [htl]
              exact ih (by omega) (by omega)
            | cons n0 ns =>
              have hr1 : r1.length ≤ rest.length := by
                have := takeLetters_snd_length rest
                rw [htl] at this
                exact this
              cases hdg : dropThroughGt r1 with
              | some r2 =>
                have hr2 : r2.length < r1.length := (dropThroughGt_some r1 r2 hdg).2
                simp only [htl, hdg]
                exact congrArg (List.cons (n0 :: ns)) (ih (by omega) (by omega))
              | none =>
                simp only [htl, hdg]
                exact ih (by omega) (by omega)
        · rw [if_neg hc, if_neg hc]
          exact ih (by omega) (by omega)

theorem closeTagsF_congr :
    ∀ f1 {f2 : Nat} {s : List Char}, s.length ≤ f1 → s.length ≤ f2 →
      closeTagsF f1 s = closeTagsF f2 s := by
  intro f1
  induction f1 with
  | zero =>
    intro f2 s h1 _
    have : s = [] := List.length_eq_zero.mp (by omega)
    subst this
    rw [closeTagsF_nil, closeTagsF_nil]
  | succ f1 ih =>
    intro f2 s h1 h2
    cases s with
    | nil => rw [closeTagsF_nil, closeTagsF_nil]
    | cons c rest =>
      cases f2 with
      | zero => simp at h2
      | succ g =>
        rw [closeTagsF.eq_def, closeTagsF.eq_def]
        simp only []
        simp only [List.length_cons] at h1 h2
        by_cases hc : c = '<'
        · rw [if_pos hc, if_pos hc]
          cases rest with
          | nil => simp only []; exact ih (by simp) (by simp)
          | cons d rest1 =>
            simp only [List.length_cons] at h1 h2
            by_cases hd : d = '/'
            · simp only [if_pos hd]
              cases htl : takeLetters rest1 with
              | mk nm r1 =>
                cases nm with
                | nil =>
                  simp only [htl]
                  exact ih (by simp; omega) (by simp; omega)
                | cons n0 ns =>
                  have hr1 : r1.length ≤ rest1.length := by
                    have := takeLetters_snd_length rest1
                    rw [htl] at this
                    exact this
                  cases r1 with
                  | nil =>
                    simp only [htl]
                    exact ih (by simp; omega) (by simp; omega)
                  | cons e r2 =>
                    simp only [htl]
                    by_cases he : e = '>'
                    · simp only [if_pos he, List.length_cons] at *
                      exact congrArg (List.cons (n0 :: ns)) (ih (by omega) (by omega))
                    · simp only [if_neg he]
                      exact ih (by simp; omega) (by simp; omega)
            · simp only [if_neg hd]
              exact ih (by simp; omega) (by simp; omega)
        · rw [if_neg hc, if_neg hc]
          exact ih (by omega) (by omega)

theorem tagTokensF_congr :
    ∀ f1 {f2 : Nat} {s : List Char}, s.length ≤ f1 → s.length ≤ f2 →
      tagTokensF f1 s = tagTokensF f2 s := by
  intro f1
  induction f1 with
  | zero =>
    intro f2 s h1 _
    have : s = [] := List.length_eq_zero.mp (by omega)
    subst this
    rw [tagTokensF_nil, tagTokensF_nil]
  | succ f1 ih =>
    intro f2 s h1 h2
    cases s with
    | nil => rw [tagTokensF_nil, tagTokensF_nil]
    | cons c rest =>
      cases f2 with
      | zero => simp at h2
      | succ g =>
        rw [tagTokensF.eq_def, tagTokensF.eq_def]
        simp only []
        simp only [List.length_cons] at h1 h2
        by_cases hc : c = '<'
        · rw [if_pos hc, if_pos hc]
          cases rest with
          | nil => simp only []; exact ih (by simp) (by simp)
          | cons d rest1 =>
            simp only [List.length_cons] at h1 h2
            by_cases hd : d = '/'
            · simp only [if_pos hd]
              cases htl : takeLetters rest1 with
              | mk nm r1 =>
                cases nm with
                | nil =>
                  simp only [htl]
                  exact ih (by simp; omega) (by simp; omega)
                | cons n0 ns =>
                  have hr1 : r1.length ≤ rest1.length := by
                    have := takeLetters_snd_length rest1
                    rw [htl] at this
                    exact this
                  cases r1 with
                  | nil =>
                    simp only [htl]
                    exact ih (by simp; omega) (by simp; omega)
                  | cons e r2 =>
                    simp only [htl]
                    by_cases he : e = '>'
                    · simp only [if_pos he, List.length_cons] at *
                      exact congrArg (List.cons (TagTok.closeTag (n0 :: ns)))
                        (ih (by omega) (by omega))
                    · simp only [if_neg he]
                      exact ih (by simp; omega) (by simp; omega)
            · simp only [if_neg hd]
              cases htl : takeLetters (d :: rest1) with
              | mk nm r1 =>
                cases nm with
                | nil =>
                  simp only [htl]
                  exact ih (by simp; omega) (by simp; omega)
                | cons n0 ns =>
                  have hr1 : r1.length ≤ (d :: rest1).length := by
                    have := takeLetters_snd_length (d :: rest1)
                    rw [htl] at this
                    exact this
                  simp only [List.length_cons] at hr1
                  cases hdg : dropThroughGt r1 with
                  | some r2 =>
                    have hr2 : r2.length < r1.length := (dropThroughGt_some r1 r2 hdg).2
                    simp only [htl, hdg]
                    exact congrArg (List.cons (TagTok.openTag (n0 :: ns)))
                      (ih (by omega) (by omega))
                  | none =>
                    simp only [htl, hdg]
                    exact ih (by simp; omega) (by simp; omega)
        · rw [if_neg hc, if_neg hc]
          exact ih (by omega) (by omega)

theorem openTags_nil : openTags [] = [] := rfl

theorem closeTags_nil : closeTags [] = [] := rfl

theorem tagTokens_nil : tagTokens [] = [] := rfl

theorem openTags_cons_ne (c : Char) (rest : List Char) (hc : c ≠ '<') :
    openTags (c :: rest) = openTags rest := by
  rw [openTags, show (c :: rest).length = rest.length + 1 from rfl, openTagsF,
    if_neg hc, openTags]

theorem openTags_lt_nolet (rest r : List Char)
    (h : takeLetters rest = ([], r)) :
    openTags ('<' :: rest) = openTags rest := by
  rw [openTags, show ('<' :: rest).length = rest.length + 1 from rfl, openTagsF,
    if_pos rfl]
  simp only [h]
  rw [openTags]

theorem openTags_lt_match (rest : List Char) (n0 : Char) (ns r1 r2 : List Char)
    (h1 : takeLetters rest = (n0 :: ns, r1)) (h2 : dropThroughGt r1 = some r2) :
    openTags ('<' :: rest) = (n0 :: ns) :: openTags r2 := by
  rw [openTags, show ('<' :: rest).length = rest.length + 1 from rfl, openTagsF,
    if_pos rfl]
  simp only [h1, h2]
  have hle : r2.length ≤ rest.length := by
    have ha := takeLetters_snd_length rest
    rw [h1] at ha
    simp only [] at ha
    have hb := (dropThroughGt_some r1 r2 h2).2
    omega
  exact congrArg _ (openTagsF_congr rest.length hle (Nat.le_refl _))

theorem openTags_lt_nogt (rest : List Char) (n0 : Char) (ns r1 : List Char)
    (h1 : takeLetters rest = (n0 :: ns, r1)) (h2 : dropThroughGt r1 = none) :
    openTags ('<' :: rest) = openTags rest := by
  rw [openTags, show ('<' :: rest).length = rest.length + 1 from rfl, openTagsF,
    if_pos rfl]
  simp only [h1, h2]
  rw [openTags]

theorem openTags_skip (l s : List Char) (hl : ∀ c ∈ l, c ≠ '<') :
    openTags (l ++ s) = openTags s := by
  induction l with
  | nil => rfl
  | cons c rest ih =>
    rw [List.cons_append, openTags_cons_ne c _ (hl c (List.mem_cons_self c rest))]
    exact ih fun x hx => hl x (List.mem_cons_of_mem c hx)

theorem closeTags_cons_ne (c : Char) (rest : List Char) (hc : c ≠ '<') :
    closeTags (c :: rest) = closeTags rest := by
  rw [closeTags, show (c :: rest).length = rest.length + 1 from rfl,
    closeTagsF.eq_def]
  simp only []
  rw [if_neg hc, closeTags]

theorem closeTags_lt_cons (d : Char) (rest1 : List Char) (hd : d ≠ '/') :
    closeTags ('<' :: d :: rest1) = closeTags (d :: rest1) := by
  rw [closeTags, show ('<' :: d :: rest1).length = (d :: rest1).length + 1 from rfl,
    closeTagsF.eq_def]
  simp only []
  rw [if_pos trivial, if_neg hd, closeTags]

theorem closeTags_lt_nolet (rest1 r : List Char)
    (h : takeLetters rest1 = ([], r)) :
    closeTags ('<' :: '/' :: rest1) = closeTags ('/' :: rest1) := by
  rw [closeTags, show ('<' :: '/' :: rest1).length = ('/' :: rest1).length + 1 from rfl,
    closeTagsF.eq_def]
  simp only []
  rw [if_pos trivial, if_pos trivial]
  simp only [h]
  rw [closeTags]

theorem closeTags_lt_match (rest1 : List Char) (n0 : Char) (ns r2 : List Char)
    (h : takeLetters rest1 = (n0 :: ns, '>' :: r2)) :
    closeTags ('<' :: '/' :: rest1) = (n0 :: ns) :: closeTags r2 := by
  rw [closeTags, show ('<' :: '/' :: rest1).length = ('/' :: rest1).length + 1 from rfl,
    closeTagsF.eq_def]
  simp only []
  rw [if_pos trivial, if_pos trivial]
  simp only [h]
  rw [if_pos trivial]
  have hle : r2.length ≤ ('/' :: rest1).length := by
    have ha := takeLetters_snd_length rest1
    rw [h] at ha
    simp only [List.length_cons] at ha ⊢
    omega
  exact congrArg _ (closeTagsF_congr _ hle (Nat.le_refl _))

theorem closeTags_lt_nogt (rest1 : List Char) (n0 e : Char) (ns r2 : List Char)
    (h : takeLetters rest1 = (n0 :: ns, e :: r2)) (he : e ≠ '>') :
    closeTags ('<' :: '/' :: rest1) = closeTags ('/' :: rest1) := by
  rw [closeTags, show ('<' :: '/' :: rest1).length = ('/' :: rest1).length + 1 from rfl,
    closeTagsF.eq_def]
  simp only []
  rw [if_pos trivial, if_pos trivial]
  simp only [h]
  rw [if_neg he, closeTags]

theorem closeTags_lt_end (rest1 : List Char) (n0 : Char) (ns : List Char)
    (h : takeLetters rest1 = (n0 :: ns, [])) :
    closeTags ('<' :: '/' :: rest1) = closeTags ('/' :: rest1) := by
  rw [closeTags, show ('<' :: '/' :: rest1).length = ('/' :: rest1).length + 1 from rfl,
    closeTagsF.eq_def]
  simp only []
  rw [if_pos trivial, if_pos trivial]
  simp only [h]
  rw [closeTags]

theorem closeTags_skip (l s : List Char) (hl : ∀ c ∈ l, c ≠ '<') :
    closeTags (l ++ s) = closeTags s := by
  induction l with
  | nil => rfl
  | cons c rest ih =>
    rw [List.cons_append, closeTags_cons_ne c _ (hl c (List.mem_cons_self c rest))]
    exact ih fun x hx => hl x (List.mem_cons_of_mem c hx)

theorem tagTokens_cons_ne (c : Char) (rest : List Char) (hc : c ≠ '<') :
    tagTokens (c :: rest) = tagTokens rest := by
  rw [tagTokens, show (c :: rest).length = rest.length + 1 from rfl,
    tagTokensF.eq_def]
  simp only []
  rw [if_neg hc, tagTokens]

theorem tagTokens_skip (l s : List Char) (hl : ∀ c ∈ l, c ≠ '<') :
    tagTokens (l ++ s) = tagTokens s := by
  induction l with
  | nil => rfl
  | cons c rest ih =>
    rw [List.cons_append, tagTokens_cons_ne c _ (hl c (List.mem_cons_self c rest))]
    exact ih fun x hx => hl x (List.mem_cons_of_mem c hx)

theorem tagTokens_close_match (rest1 : List Char) (n0 : Char) (ns r2 : List Char)
    (h : takeLetters rest1 = (n0 :: ns, '>' :: r2)) :
    tagTokens ('<' :: '/' :: rest1) = TagTok.closeTag (n0 :: ns) :: tagTokens r2 := by
  rw [tagTokens, show ('<' :: '/' :: rest1).length = ('/' :: rest1).length + 1 from rfl,
    tagTokensF.eq_def]
  simp only []
  rw [if_pos trivial, if_pos trivial]
  simp only [h]
  rw [if_pos trivial]
  have hle : r2.length ≤ ('/' :: rest1).length := by
    have ha := takeLetters_snd_length rest1
    rw [h] at ha
    simp only [List.length_cons] at ha ⊢
    omega
  exact congrArg _ (tagTokensF_congr _ hle (Nat.le_refl _))

theorem tagTokens_open_match (d : Char) (rest1 : List Char) (hd : d ≠ '/')
    (n0 : Char) (ns r1 r2 : List Char)
    (h1 : takeLetters (d :: rest1) = (n0 :: ns, r1))
    (h2 : dropThroughGt r1 = some r2) :
    tagTokens ('<' :: d :: rest1) = TagTok.openTag (n0 :: ns) :: tagTokens r2 := by
  rw [tagTokens, show ('<' :: d :: rest1).length = (d :: rest1).length + 1 from rfl,
    tagTokensF.eq_def]
  simp only []
  rw [if_pos trivial, if_neg hd]
  simp only [h1, h2]
  have hle : r2.length ≤ (d :: rest1).length := by
    have ha := takeLetters_snd_length (d :: rest1)
    rw [h1] at ha
    simp only [] at ha
    have hb := (dropThroughGt_some r1 r2 h2).2
    omega
  exact congrArg _ (tagTokensF_congr _ hle (Nat.le_refl _))

theorem takeLetters_nil_fst {d : Char} {rest2 r : List Char}
    (h : takeLetters (d :: rest2) = ([], r)) :
    isLowerAZ d = false ∧ r = d :: rest2 := by
  rw [takeLetters] at h
  split at h
  · cases h
  · cases h
    rename_i hd
    exact ⟨by simpa using hd, rfl⟩

theorem noDangling_tail {c : Char} {rest : List Char}
    (h : noDanglingLt (c :: rest) = true) : noDanglingLt rest = true := by
  rw [noDanglingLt, Bool.and_eq_true] at h
  exact h.2

theorem noDangling_head_lt {rest : List Char}
    (h : noDanglingLt ('<' :: rest) = true) : '>' ∈ rest := by
  rw [noDanglingLt, Bool.and_eq_true, if_pos rfl] at h
  exact List.mem_of_elem_eq_true h.1

theorem noDangling_suffix :
    ∀ {s1 s2 : List Char}, s1 <:+ s2 → noDanglingLt s2 = true →
      noDanglingLt s1 = true := by
  intro s1 s2 hs h
  obtain ⟨t, rfl⟩ := hs
  induction t with
  | nil => exact h
  | cons c rest ih => exact ih (noDangling_tail h)

theorem noDangling_append {a b : List Char} (ha : noDanglingLt a = true)
    (hb : noDanglingLt b = true) : noDanglingLt (a ++ b) = true := by
  induction a with
  | nil => exact hb
  | cons c rest ih =>
    rw [List.cons_append, noDanglingLt, Bool.and_eq_true]
    rw [noDanglingLt, Bool.and_eq_true] at ha
    refine ⟨?_, ih ha.2⟩
    split
    · rename_i hc
      rw [if_pos hc] at ha
      have := List.mem_of_elem_eq_true ha.1
      exact List.elem_eq_true_of_mem (List.mem_append_left b this)
    · rfl

theorem mem_letters_not_gt {n0 : Char} {ns s : List Char}
    (hf : takeLetters s = (n0 :: ns, (takeLetters s).2)) :
    '>' ∉ (n0 :: ns) := by
  intro hmem
  have := takeLetters_fst_lower s '>' (by rw [hf]; exact hmem)
  simp [isLowerAZ] at this

theorem openTags_append :
    ∀ n s, s.length ≤ n → noDanglingLt s = true →
      ∀ t, openTags (s ++ t) = openTags s ++ openTags t := by
  intro n
  induction n with
  | zero =>
    intro s h1 _ t
    have : s = [] := List.length_eq_zero.mp (by omega)
    subst this
    simp [openTags_nil]
  | succ n ih =>
    intro s h1 hnd t
    cases s with
    | nil => simp [openTags_nil]
    | cons c rest =>
      simp only [List.length_cons] at h1
      by_cases hc : c = '<'
      · subst hc
        have hgt : '>' ∈ rest := noDangling_head_lt hnd
        cases htl : takeLetters rest with
        | mk nm r1 =>
          cases nm with
          | nil =>
            cases rest with
            | nil => simp at hgt
            | cons d rest2 =>
              obtain ⟨hdl, _⟩ := takeLetters_nil_fst htl
              have htl2 : takeLetters ((d :: rest2) ++ t) = ([], d :: (rest2 ++ t)) := by
                rw [List.cons_append, takeLetters, if_neg (by simp [hdl])]
              rw [List.cons_append,
                openTags_lt_nolet _ _ (by rw [← List.cons_append] at htl2; exact htl2),
                openTags_lt_nolet _ _ htl]
              exact ih (d :: rest2) (by simpa using h1) (noDangling_tail hnd) t
          | cons n0 ns =>
            have hfst : takeLetters rest = (n0 :: ns, (takeLetters rest).2) := by
              rw [htl]
            have hgt_r1 : '>' ∈ r1 := by
              have hdec := takeLetters_decomp rest
              rw [htl] at hdec
              simp only [] at hdec
              rw [← hdec] at hgt
              rcases List.mem_append.mp hgt with hmem | hmem
              · exact absurd hmem (mem_letters_not_gt hfst)
              · exact hmem
            obtain ⟨r2, hdg⟩ := dropThroughGt_of_contains hgt_r1
            have htl2 : takeLetters (rest ++ t) = (n0 :: ns, r1 ++ t) := by
              have hne : (takeLetters rest).2 ≠ [] := by
                rw [htl]
                intro hf
                simp only [] at hf
                rw [hf] at hgt_r1
                simp at hgt_r1
              rw [takeLetters_append_of_snd_ne rest t hne, htl]
            have hdg2 : dropThroughGt (r1 ++ t) = some (r2 ++ t) :=
              dropThroughGt_append_some r1 t r2 hdg
            rw [List.cons_append,
              openTags_lt_match (rest ++ t) n0 ns (r1 ++ t) (r2 ++ t) htl2 hdg2,
              openTags_lt_match rest n0 ns r1 r2 htl hdg]
            have hr2s : r2 <:+ ('<' :: rest) := by
              have h1s : r2 <:+ r1 := (dropThroughGt_some r1 r2 hdg).1
              have h2s : r1 <:+ rest := by
                have := takeLetters_snd_suffix rest
                rw [htl] at this
                exact this
              exact (h1s.trans h2s).trans (List.suffix_cons _ _)
            have hr2len : r2.length ≤ n := by
              have h1l := (dropThroughGt_some r1 r2 hdg).2
              have h2l : r1.length ≤ rest.length := by
                have := takeLetters_snd_length rest
                rw [htl] at this
                exact this
              omega
            rw [List.cons_append]
            exact congrArg _ (ih r2 hr2len (noDangling_suffix hr2s hnd) t)
      · rw [List.cons_append, openTags_cons_ne c _ hc, openTags_cons_ne c _ hc,
          ih rest (by omega) (noDangling_tail hnd) t]

theorem closeTags_append :
    ∀ n s, s.length ≤ n → noDanglingLt s = true →
      ∀ t, closeTags (s ++ t) = closeTags s ++ closeTags t := by
  intro n
  induction n with
  | zero =>
    intro s h1 _ t
    have : s = [] := List.length_eq_zero.mp (by omega)
    subst this
    simp [closeTags_nil]
  | succ n ih =>
    intro s h1 hnd t
    cases s with
    | nil => simp [closeTags_nil]
    | cons c rest =>
      simp only [List.length_cons] at h1
      by_cases hc : c = '<'
      · subst hc
        have hgt : '>' ∈ rest := noDangling_head_lt hnd
        cases rest with
        | nil => simp at hgt
        | cons d rest1 =>
          by_cases hd : d = '/'
          · subst hd
            have hgt1 : '>' ∈ rest1 := by
              rcases List.mem_cons.mp hgt with he | he
              · cases he
              · exact he
            cases htl : takeLetters rest1 with
            | mk nm r1 =>
              cases nm with
              | nil =>
                cases rest1 with
                | nil => simp at hgt1
                | cons d2 rest2 =>
                  obtain ⟨hdl, _⟩ := takeLetters_nil_fst htl
                  have htl2 : takeLetters ((d2 :: rest2) ++ t) =
                      ([], d2 :: (rest2 ++ t)) := by
                    rw [List.cons_append, takeLetters, if_neg (by simp [hdl])]
                  rw [List.cons_append, List.cons_append,
                    closeTags_lt_nolet _ _ (by rw [← List.cons_append] at htl2; exact htl2),
                    closeTags_lt_nolet _ _ htl]
                  rw [← List.cons_append]
                  exact ih ('/' :: d2 :: rest2) (by simpa using h1)
                    (noDangling_tail hnd) t
              | cons n0 ns =>
                have hfst : takeLetters rest1 = (n0 :: ns, (takeLetters rest1).2) := by
                  rw [htl]
                have hne : (takeLetters rest1).2 ≠ [] := by
                  rw [htl]
                  intro hf
                  simp only [] at hf
                  subst hf
                  have hdec := takeLetters_decomp rest1
                  rw [htl] at hdec
                  simp only [List.append_nil] at hdec
                  rw [← hdec] at hgt1
                  exact mem_letters_not_gt hfst hgt1
                cases r1 with
                | nil => rw [htl] at hne; exact absurd rfl hne
                | cons e r2 =>
                  have htl2 : takeLetters (rest1 ++ t) = (n0 :: ns, e :: (r2 ++ t)) := by
                    rw [takeLetters_append_of_snd_ne rest1 t hne, htl]
                    rfl
                  by_cases he : e = '>'
                  · subst he
                    rw [List.cons_append, List.cons_append,
                      closeTags_lt_match _ n0 ns _ (by
                        rw [← List.cons_append] at htl2
                        rw [← List.cons_append]
                        exact htl2),
                      closeTags_lt_match _ n0 ns _ htl]
                    have hr2s : r2 <:+ ('<' :: '/' :: rest1) := by
                      have h1s : r2 <:+ '>' :: r2 := List.suffix_cons _ _
                      have h2s : ('>' :: r2) <:+ rest1 := by
                        have := takeLetters_snd_suffix rest1
                        rw [htl] at this
                        exact this
                      exact ((h1s.trans h2s).trans (List.suffix_cons _ _)).trans
                        (List.suffix_cons _ _)
                    have hr2len : r2.length ≤ n := by
                      have h2l : ('>' :: r2).length ≤ rest1.length := by
                        have := takeLetters_snd_length rest1
                        rw [htl] at this
                        exact this
                      simp only [List.length_cons] at h2l h1
                      omega
                    rw [List.cons_append]
                    exact congrArg _ (ih r2 hr2len (noDangling_suffix hr2s hnd) t)
                  · rw [List.cons_append, List.cons_append,
                      closeTags_lt_nogt _ n0 e ns _ (by
                        rw [← List.cons_append] at htl2
                        exact htl2) he,
                      closeTags_lt_nogt _ n0 e ns _ htl he]
                    rw [← List.cons_append]
                    exact ih ('/' :: rest1) (by simpa using h1)
                      (noDangling_tail hnd) t
          · rw [List.cons_append, List.cons_append,
              closeTags_lt_cons d _ hd]
            rw [← List.cons_append, closeTags_lt_cons d rest1 hd]
            exact ih (d :: rest1) (by simpa using h1) (noDangling_tail hnd) t
      · rw [List.cons_append, closeTags_cons_ne c _ hc, closeTags_cons_ne c _ hc,
          ih rest (by omega) (noDangling_tail hnd) t]

theorem lower_ne_lt {c : Char} (h : isLowerAZ c = true) : c ≠ '<' := by
  intro he
  subst he
  simp [isLowerAZ] at h

theorem noDangling_no_lt {l : List Char} (h : '<' ∉ l) :
    noDanglingLt l = true := by
  induction l with
  | nil => rfl
  | cons c rest ih =>
    rw [noDanglingLt, Bool.and_eq_true]
    refine ⟨?_, ih fun hm => h (List.mem_cons_of_mem c hm)⟩
    rw [if_neg fun (he : c = '<') => h (he ▸ List.mem_cons_self c rest)]

theorem openTags_no_lt {l : List Char} (h : '<' ∉ l) : openTags l = [] := by
  have := openTags_skip l [] fun c hc he => h (he ▸ hc)
  rwa [List.append_nil, openTags_nil] at this

theorem closeTags_no_lt {l : List Char} (h : '<' ∉ l) : closeTags l = [] := by
  have := closeTags_skip l [] fun c hc he => h (he ▸ hc)
  rwa [List.append_nil, closeTags_nil] at this

theorem closerFor_no_inner_lt {t : List Char}
    (hlow : ∀ c ∈ t, isLowerAZ c = true) : '<' ∉ ('/' :: (t ++ ['>'])) := by
  intro hm
  rcases List.mem_cons.mp hm with he | hm
  · cases he
  · rcases List.mem_append.mp hm with hm | hm
    · exact lower_ne_lt (hlow '<' hm) rfl
    · simp at hm

theorem closerFor_noDangling {t : List Char}
    (hlow : ∀ c ∈ t, isLowerAZ c = true) :
    noDanglingLt (closerFor t) = true := by
  rw [closerFor, noDanglingLt, Bool.and_eq_true, if_pos rfl]
  exact ⟨List.elem_eq_true_of_mem
      (List.mem_cons_of_mem '/' (List.mem_append_right t (List.mem_singleton.mpr rfl))),
    noDangling_no_lt (closerFor_no_inner_lt hlow)⟩

theorem closerFor_openTags {t : List Char}
    (hlow : ∀ c ∈ t, isLowerAZ c = true) : openTags (closerFor t) = [] := by
  rw [closerFor,
    openTags_lt_nolet _ _ (by rw [takeLetters, if_neg (by simp [isLowerAZ])])]
  exact openTags_no_lt (closerFor_no_inner_lt hlow)

theorem closerFor_closeTags {n0 : Char} {ns : List Char}
    (hlow : ∀ c ∈ (n0 :: ns), isLowerAZ c = true) :
    closeTags (closerFor (n0 :: ns)) = [n0 :: ns] := by
  rw [closerFor, show (n0 :: ns) ++ ['>'] = (n0 :: ns) ++ '>' :: [] from rfl,
    closeTags_lt_match _ n0 ns []
      (takeLetters_all_lower_append (n0 :: ns) '>' [] hlow (by simp [isLowerAZ])),
    closeTags_nil]

theorem closersBlock (names : List (List Char))
    (h : ∀ u ∈ names, u ≠ [] ∧ ∀ c ∈ u, isLowerAZ c = true) :
    noDanglingLt ((names.map closerFor).flatten) = true ∧
    openTags ((names.map closerFor).flatten) = [] ∧
    closeTags ((names.map closerFor).flatten) = names := by
  induction names with
  | nil => exact ⟨rfl, rfl, rfl⟩
  | cons u rest ih =>
    obtain ⟨hne, hlow⟩ := h u (List.mem_cons_self u rest)
    obtain ⟨ihd, iho, ihc⟩ := ih fun v hv => h v (List.mem_cons_of_mem u hv)
    have hcd := closerFor_noDangling hlow
    refine ⟨?_, ?_, ?_⟩
    · rw [List.map_cons, List.flatten_cons]
      exact noDangling_append hcd ihd
    · rw [List.map_cons, List.flatten_cons,
        openTags_append (closerFor u).length (closerFor u) (Nat.le_refl _) hcd,
        closerFor_openTags hlow, iho]
      rfl
    · rw [List.map_cons, List.flatten_cons,
        closeTags_append (closerFor u).length (closerFor u) (Nat.le_refl _) hcd,
        ihc]
      cases u with
      | nil => exact absurd rfl hne
      | cons n0 ns => rw [closerFor_closeTags hlow]; rfl

theorem dedupAcc_mem [DecidableEq α] :
    ∀ (l : List α) (seen : List α) (x : α),
      x ∈ dedupAcc seen l ↔ x ∈ l ∧ x ∉ seen := by
  intro l
  induction l with
  | nil => intro seen x; simp [dedupAcc]
  | cons a rest ih =>
    intro seen x
    rw [dedupAcc]
    split
    · rename_i ha
      rw [ih]
      constructor
      · rintro ⟨h1, h2⟩
        exact ⟨List.mem_cons_of_mem a h1, h2⟩
      · rintro ⟨h1, h2⟩
        rcases List.mem_cons.mp h1 with rfl | h1
        · exact absurd ha h2
        · exact ⟨h1, h2⟩
    · rename_i ha
      constructor
      · intro hm
        rcases List.mem_cons.mp hm with rfl | hm
        · exact ⟨List.mem_cons_self x rest, ha⟩
        · obtain ⟨h1, h2⟩ := (ih (a :: seen) x).mp hm
          exact ⟨List.mem_cons_of_mem a h1,
            fun hx => h2 (List.mem_cons_of_mem a hx)⟩
      · rintro ⟨h1, h2⟩
        rcases List.mem_cons.mp h1 with rfl | h1
        · exact List.mem_cons_self x _
        · by_cases hxa : x = a
          · subst hxa; exact List.mem_cons_self x _
          · exact List.mem_cons_of_mem a ((ih (a :: seen) x).mpr
              ⟨h1, fun hx => by
                rcases List.mem_cons.mp hx with he | hx
                · exact hxa he
                · exact h2 hx⟩)

theorem dedupAcc_nodup [DecidableEq α] :
    ∀ (l : List α) (seen : List α), (dedupAcc seen l).Nodup := by
  intro l
  induction l with
  | nil => intro seen; simp [dedupAcc]
  | cons a rest ih =>
    intro seen
    rw [dedupAcc]
    split
    · exact ih seen
    · refine List.nodup_cons.mpr ⟨?_, ih (a :: seen)⟩
      intro hm
      exact ((dedupAcc_mem rest (a :: seen) a).mp hm).2 (List.mem_cons_self a seen)

theorem openTagsF_mem :
    ∀ fuel (s : List Char), ∀ t ∈ openTagsF fuel s,
      t ≠ [] ∧ ∀ c ∈ t, isLowerAZ c = true := by
  intro fuel
  induction fuel with
  | zero => intro s t ht; simp [openTagsF] at ht
  | succ fuel ih =>
    intro s t ht
    cases s with
    | nil => simp [openTagsF] at ht
    | cons c rest =>
      rw [openTagsF] at ht
      split at ht
      · cases htl : takeLetters rest with
        | mk nm r1 =>
          rw [htl] at ht
          cases nm with
          | nil => exact ih rest t ht
          | cons n0 ns =>
            simp only [] at ht
            cases hdg : dropThroughGt r1 with
            | some r2 =>
              rw [hdg] at ht
              rcases List.mem_cons.mp ht with rfl | ht
              · refine ⟨by simp, fun c hc => ?_⟩
                exact takeLetters_fst_lower rest c (by rw [htl]; exact hc)
              · exact ih r2 t ht
            | none =>
              rw [hdg] at ht
              exact ih rest t ht
      · exact ih rest t ht

theorem closeTagsF_mem :
    ∀ fuel (s : List Char), ∀ t ∈ closeTagsF fuel s,
      t ≠ [] ∧ ∀ c ∈ t, isLowerAZ c = true := by
  intro fuel
  induction fuel with
  | zero => intro s t ht; simp [closeTagsF] at ht
  | succ fuel ih =>
    intro s t ht
    cases s with
    | nil => simp [closeTagsF] at ht
    | cons c rest =>
      rw [closeTagsF.eq_def] at ht
      simp only [] at ht
      split at ht
      · cases rest with
        | nil => exact ih _ t ht
        | cons d rest1 =>
          simp only [] at ht
          split at ht
          · cases htl : takeLetters rest1 with
            | mk nm r1 =>
              rw [htl] at ht
              cases nm with
              | nil => exact ih _ t ht
              | cons n0 ns =>
                simp only [] at ht
                cases r1 with
                | nil => exact ih _ t ht
                | cons e r2 =>
                  simp only [] at ht
                  split at ht
                  · rcases List.mem_cons.mp ht with rfl | ht
                    · refine ⟨by simp, fun c hc => ?_⟩
                      exact takeLetters_fst_lower rest1 c (by rw [htl]; exact hc)
                    · exact ih r2 t ht
                  · exact ih _ t ht
          · exact ih _ t ht
      · exact ih rest t ht

theorem flatten_map_closers :
    ∀ (keys : List (List Char)) (cnt : List Char → Nat),
      ((keys.map fun u =>
          (List.replicate (cnt u) (closerFor u)).flatten).flatten)
        = ((keys.flatMap fun u => List.replicate (cnt u) u).map closerFor).flatten := by
  intro keys cnt
  induction keys with
  | nil => rfl
  | cons u rest ih =>
    rw [List.map_cons, List.flatten_cons, List.flatMap_cons, List.map_append,
      List.flatten_append, ih, List.map_replicate]

theorem count_flatMap_replicate :
    ∀ (keys : List (List Char)) (cnt : List Char → Nat) (t : List Char),
      keys.Nodup →
      ((keys.flatMap fun u => List.replicate (cnt u) u).count t) =
        if t ∈ keys then cnt t else 0 := by
  intro keys cnt t
  induction keys with
  | nil => intro _; simp
  | cons u rest ih =>
    intro hnd
    obtain ⟨hu, hrest⟩ := List.nodup_cons.mp hnd
    rw [List.flatMap_cons, List.count_append, List.count_replicate, ih hrest]
    by_cases ht : t = u
    · subst ht
      simp [hu]
    · by_cases htr : t ∈ rest
      · simp [beq_iff_eq, ht, Ne.symm ht, htr]
      · simp [beq_iff_eq, ht, Ne.symm ht, htr]

/-- Claim C2, amended: for a fragment with no dangling '<' (every '<' is
followed by a later '>'), after ensureHTMLTagsClosed every tag has at least
as many closing as opening markers, and exactly as many whenever the
fragment had no closing surplus to begin with.  Correct nesting order and a
deterministic append order are NOT guaranteed (see the counterexample). -/
theorem c2_repair_counts (f t : List Char) (hnd : noDanglingLt f = true) :
    (openTags (ensureHTMLTagsClosed f)).count t ≤
      (closeTags (ensureHTMLTagsClosed f)).count t ∧
    ((∀ u, (closeTags f).count u ≤ (openTags f).count u) →
      (openTags (ensureHTMLTagsClosed f)).count t =
        (closeTags (ensureHTMLTagsClosed f)).count t) := by
  have hB : appendedClosers f =
      ((((dedupAcc [] (openTags f ++ closeTags f)).flatMap fun u =>
        List.replicate ((openTags f).count u - (closeTags f).count u) u).map
          closerFor).flatten) := by
    rw [appendedClosers, flatten_map_closers]
  have hgood : ∀ u ∈ ((dedupAcc [] (openTags f ++ closeTags f)).flatMap fun u =>
      List.replicate ((openTags f).count u - (closeTags f).count u) u),
      u ≠ [] ∧ ∀ c ∈ u, isLowerAZ c = true := by
    intro u hu
    obtain ⟨kk, hkk, hrep⟩ := List.mem_flatMap.mp hu
    have : u = kk := List.eq_of_mem_replicate hrep
    subst this
    have hmem := ((dedupAcc_mem _ [] u).mp hkk).1
    rcases List.mem_append.mp hmem with hm | hm
    · exact openTagsF_mem f.length f u hm
    · exact closeTagsF_mem f.length f u hm
  obtain ⟨hBnd, hBopen, hBclose⟩ := closersBlock _ hgood
  rw [← hB] at hBnd hBopen hBclose
  have hopen : openTags (ensureHTMLTagsClosed f) = openTags f := by
    rw [ensureHTMLTagsClosed,
      openTags_append f.length f (Nat.le_refl _) hnd, hBopen, List.append_nil]
  have hclose : closeTags (ensureHTMLTagsClosed f) =
      closeTags f ++ ((dedupAcc [] (openTags f ++ closeTags f)).flatMap fun u =>
        List.replicate ((openTags f).count u - (closeTags f).count u) u) := by
    rw [ensureHTMLTagsClosed,
      closeTags_append f.length f (Nat.le_refl _) hnd, hBclose]
  rw [hopen, hclose, List.count_append,
    count_flatMap_replicate (dedupAcc [] (openTags f ++ closeTags f))
      (fun u => (openTags f).count u - (closeTags f).count u) t
      (dedupAcc_nodup _ [])]
  by_cases hk : t ∈ dedupAcc [] (openTags f ++ closeTags f)
  · rw [if_pos hk]
    constructor
    · omega
    · intro hle
      have := hle t
      omega
  · rw [if_neg hk]
    have hnm : t ∉ openTags f ++ closeTags f := by
      intro hm
      exact hk ((dedupAcc_mem _ [] t).mpr ⟨hm, by simp⟩)
    have ho : (openTags f).count t = 0 :=
      List.count_eq_zero.mpr fun hm => hnm (List.mem_append_left _ hm)
    have hc : (closeTags f).count t = 0 :=
      List.count_eq_zero.mpr fun hm => hnm (List.mem_append_right _ hm)
    omega

theorem tagTokens_no_lt {l : List Char} (h : '<' ∉ l) : tagTokens l = [] := by
  have := tagTokens_skip l [] fun c hc he => h (he ▸ hc)
  rwa [List.append_nil, tagTokens_nil] at this

theorem scanDesc_top {f : Nat → Option Nat} {i r : Nat} (hf : f i = some r) :
    ∀ n, 0 < n → scanDesc f i n = some r := by
  intro n hn
  cases n with
  | zero => omega
  | succ m => rw [scanDesc, hf]

theorem getD_three {A B C : List Char} {la lb i : Nat} (h1 : A.length = la)
    (h2 : B.length = lb) (h : la + lb ≤ i) :
    (A ++ (B ++ C)).getD i c0 = C.getD (i - la - lb) c0 := by
  rw [List.getD_append_right _ _ _ _ (by rw [h1]; omega),
    List.getD_append_right _ _ _ _ (by rw [h1, h2]; omega), h1, h2]

theorem exC2_length : exC2.length = 4004 := by
  rw [exC2, List.length_append, List.length_append, List.length_replicate,
    show (cs "</b><b>").length = 7 from rfl, show (cs "\n\nxyz").length = 5 from rfl]

theorem exC2_getD_4000 : exC2.getD 4000 c0 = '\n' := by
  rw [exC2, List.append_assoc, getD_three (show (cs "</b><b>").length = 7 from rfl)
    (show (List.replicate 3992 'a').length = 3992 by rw [List.length_replicate]) (by omega)]
  rfl

theorem exC2_getD_3999 : exC2.getD 3999 c0 = '\n' := by
  rw [exC2, List.append_assoc, getD_three (show (cs "</b><b>").length = 7 from rfl)
    (show (List.replicate 3992 'a').length = 3992 by rw [List.length_replicate]) (by omega)]
  rfl

theorem exC2_split_point : findSplitPoint exC2 4000 = 4001 := by
  rw [findSplitPoint, findSplitPointA, if_neg (by rw [exC2_length]; omega)]
  rw [scanDesc_top (f := fun i =>
      if exC2.getD i c0 = '\n' ∧ 0 < i ∧ exC2.getD (i - 1) c0 = '\n' then
        some (i + 1) else none) (r := 4001)
    (by
      show (if exC2.getD 4000 c0 = '\n' ∧ 0 < 4000 ∧
          exC2.getD (4000 - 1) c0 = '\n' then some (4000 + 1) else none) =
        some 4001
      rw [if_pos ⟨exC2_getD_4000, by omega, exC2_getD_3999⟩])
    (4000 - 4000 / 2) (by omega)]

theorem exC2_take : exC2.take 4001 =
    cs "</b><b>" ++ (List.replicate 3992 'a' ++ cs "\n\n") := by
  rw [exC2, List.append_assoc, List.take_append_eq_append_take,
    List.take_of_length_le (show (cs "</b><b>").length ≤ 4001 by
      rw [show (cs "</b><b>").length = 7 from rfl]; omega),
    show 4001 - (cs "</b><b>").length = 3994 from rfl,
    List.take_append_eq_append_take,
    List.take_of_length_le (show (List.replicate 3992 'a').length ≤ 3994 by
      rw [List.length_replicate]; omega),
    show 3994 - (List.replicate 3992 'a').length = 2 by
      rw [List.length_replicate],
    show (cs "\n\nxyz").take 2 = cs "\n\n" from rfl]

theorem exC2_drop : exC2.drop 4001 = cs "xyz" := by
  rw [exC2, List.append_assoc, List.drop_append_eq_append_drop,
    List.drop_of_length_le (show (cs "</b><b>").length ≤ 4001 by
      rw [show (cs "</b><b>").length = 7 from rfl]; omega),
    show 4001 - (cs "</b><b>").length = 3994 from rfl,
    List.drop_append_eq_append_drop,
    List.drop_of_length_le (show (List.replicate 3992 'a').length ≤ 3994 by
      rw [List.length_replicate]; omega),
    show 3994 - (List.replicate 3992 'a').length = 2 by
      rw [List.length_replicate],
    show (cs "\n\nxyz").drop 2 = cs "xyz" from rfl, List.nil_append,
    List.nil_append]

theorem exC2_no_lt_tail : '<' ∉ (List.replicate 3992 'a' ++ cs "\n\n") := by
  intro hm
  rcases List.mem_append.mp hm with hm | hm
  · exact absurd (List.eq_of_mem_replicate hm) (by decide)
  · exact absurd hm (by decide)

theorem exC2_part1_openTags :
    openTags (cs "</b><b>" ++ (List.replicate 3992 'a' ++ cs "\n\n")) = [cs "b"] := by
  rw [show cs "</b><b>" ++ (List.replicate 3992 'a' ++ cs "\n\n") =
      '<' :: '/' :: 'b' :: '>' :: '<' :: 'b' :: '>' ::
        (List.replicate 3992 'a' ++ cs "\n\n") from rfl]
  rw [openTags_lt_nolet _ _ (by rw [takeLetters, if_neg (by decide)])]
  rw [openTags_cons_ne _ _ (by decide), openTags_cons_ne _ _ (by decide),
    openTags_cons_ne _ _ (by decide)]
  rw [openTags_lt_match _ 'b' []
      ('>' :: (List.replicate 3992 'a' ++ cs "\n\n"))
      (List.replicate 3992 'a' ++ cs "\n\n")
      (by rw [takeLetters, if_pos (by decide), takeLetters, if_neg (by decide)])
      (by rw [dropThroughGt, if_pos rfl])]
  rw [openTags_no_lt exC2_no_lt_tail]
  rfl

theorem exC2_part1_closeTags :
    closeTags (cs "</b><b>" ++ (List.replicate 3992 'a' ++ cs "\n\n")) = [cs "b"] := by
  rw [show cs "</b><b>" ++ (List.replicate 3992 'a' ++ cs "\n\n") =
      '<' :: '/' :: ('b' :: '>' :: '<' :: 'b' :: '>' ::
        (List.replicate 3992 'a' ++ cs "\n\n")) from rfl]
  rw [closeTags_lt_match _ 'b' []
      ('<' :: 'b' :: '>' :: (List.replicate 3992 'a' ++ cs "\n\n"))
      (by rw [takeLetters, if_pos (by decide), takeLetters, if_neg (by decide)])]
  rw [closeTags_lt_cons 'b' _ (by decide)]
  rw [closeTags_cons_ne _ _ (by decide), closeTags_cons_ne _ _ (by decide)]
  rw [closeTags_no_lt exC2_no_lt_tail]
  rfl

theorem exC2_part1_repair :
    ensureHTMLTagsClosed (cs "</b><b>" ++ (List.replicate 3992 'a' ++ cs "\n\n")) =
      cs "</b><b>" ++ (List.replicate 3992 'a' ++ cs "\n\n") := by
  rw [ensureHTMLTagsClosed]
  have hB : appendedClosers
      (cs "</b><b>" ++ (List.replicate 3992 'a' ++ cs "\n\n")) = [] := by
    simp only [appendedClosers]
    rw [exC2_part1_openTags, exC2_part1_closeTags]
    decide
  rw [hB, List.append_nil]

theorem exC2_parts : splitHTMLMessage exC2 4000 =
    [cs "</b><b>" ++ (List.replicate 3992 'a' ++ cs "\n\n"), cs "xyz"] := by
  rw [splitHTMLMessage, exC2_length, show (4004 : Nat) = 4003 + 1 from rfl,
    splitHTMLGo, if_pos (by rw [exC2_length]; omega), exC2_split_point]
  show ensureHTMLTagsClosed (exC2.take 4001) ::
    splitHTMLGo 4000 4003 (exC2.drop 4001) =
    [cs "</b><b>" ++ (List.replicate 3992 'a' ++ cs "\n\n"), cs "xyz"]
  rw [exC2_take, exC2_drop, exC2_part1_repair,
    show (4003 : Nat) = 4002 + 1 from rfl, splitHTMLGo,
    if_neg (show ¬ (4000 < (cs "xyz").length) by decide),
    if_pos (show 0 < (cs "xyz").length by decide)]

theorem exC2_part1_tokens :
    tagTokens (cs "</b><b>" ++ (List.replicate 3992 'a' ++ cs "\n\n")) =
      [TagTok.closeTag (cs "b"), TagTok.openTag (cs "b")] := by
  rw [show cs "</b><b>" ++ (List.replicate 3992 'a' ++ cs "\n\n") =
      '<' :: '/' :: ('b' :: '>' :: '<' :: 'b' :: '>' ::
        (List.replicate 3992 'a' ++ cs "\n\n")) from rfl]
  rw [tagTokens_close_match _ 'b' []
      ('<' :: 'b' :: '>' :: (List.replicate 3992 'a' ++ cs "\n\n"))
      (by rw [takeLetters, if_pos (by decide), takeLetters, if_neg (by decide)])]
  rw [tagTokens_open_match 'b' ('>' :: (List.replicate 3992 'a' ++ cs "\n\n"))
      (by decide) 'b' [] ('>' :: (List.replicate 3992 'a' ++ cs "\n\n"))
      (List.replicate 3992 'a' ++ cs "\n\n")
      (by rw [takeLetters, if_pos (by decide), takeLetters, if_neg (by decide)])
      (by rw [dropThroughGt, if_pos rfl])]
  rw [tagTokens_no_lt exC2_no_lt_tail]
  rfl

/-- Claim C2 as stated is false: exC2 is longer than 4000 and splits into two
parts; its first part, emitted after repair by ensureHTMLTagsClosed, starts
with a stray closing tag followed by an opening tag, so a tag-stack scan of
that part alone fails (it does not end with an empty stack). -/
theorem c2_counterexample :
    (splitHTMLMessage exC2 4000).length = 2 ∧
    tagsBalanced ((splitHTMLMessage exC2 4000).getD 0 []) = false := by
  rw [exC2_parts]
  refine ⟨rfl, ?_⟩
  show tagsBalanced (cs "</b><b>" ++ (List.replicate 3992 'a' ++ cs "\n\n")) = false
  rw [tagsBalanced, show (cs "</b><b>" ++ (List.replicate 3992 'a' ++ cs "\n\n")) =
    cs "</b><b>" ++ (List.replicate 3992 'a' ++ cs "\n\n") from rfl]
  rw [show tagTokens (cs "</b><b>" ++ (List.replicate 3992 'a' ++ cs "\n\n")) =
    [TagTok.closeTag (cs "b"), TagTok.openTag (cs "b")] from exC2_part1_tokens]
  rfl

/-- Witness for c2_repair_counts at a concrete fragment. -/
theorem c2_repair_counts_witness :
    noDanglingLt (cs "<b>x") = true ∧
    ((openTags (ensureHTMLTagsClosed (cs "<b>x"))).count (cs "b") ≤
      (closeTags (ensureHTMLTagsClosed (cs "<b>x"))).count (cs "b") ∧
     (openTags (ensureHTMLTagsClosed (cs "<b>x"))).count (cs "b") =
      (closeTags (ensureHTMLTagsClosed (cs "<b>x"))).count (cs "b")) :=
  ⟨by decide,
   (c2_repair_counts (cs "<b>x") (cs "b") (by decide)).1,
   (c2_repair_counts (cs "<b>x") (cs "b") (by decide)).2
     (fun u => by
       rw [show closeTags (cs "<b>x") = [] by decide]
       simp)⟩

theorem exC5_length : exC5.length = 4004 := by
  rw [exC5, List.length_append, List.length_replicate,
    show (cs "\n\nbcd").length = 5 from rfl]

theorem exC5_getD_4000 : exC5.getD 4000 c0 = '\n' := by
  rw [exC5, List.getD_append_right _ _ _ _ (by rw [List.length_replicate]; omega),
    show (List.replicate 3999 'a').length = 3999 by rw [List.length_replicate]]
  rfl

theorem exC5_getD_3999 : exC5.getD 3999 c0 = '\n' := by
  rw [exC5, List.getD_append_right _ _ _ _ (by rw [List.length_replicate]),
    show (List.replicate 3999 'a').length = 3999 by rw [List.length_replicate]]
  rfl

theorem exC5_split_point : findSplitPoint exC5 4000 = 4001 := by
  rw [findSplitPoint, findSplitPointA, if_neg (by rw [exC5_length]; omega)]
  rw [scanDesc_top (f := fun i =>
      if exC5.getD i c0 = '\n' ∧ 0 < i ∧ exC5.getD (i - 1) c0 = '\n' then
        some (i + 1) else none) (r := 4001)
    (by
      show (if exC5.getD 4000 c0 = '\n' ∧ 0 < 4000 ∧
          exC5.getD (4000 - 1) c0 = '\n' then some (4000 + 1) else none) =
        some 4001
      rw [if_pos ⟨exC5_getD_4000, by omega, exC5_getD_3999⟩])
    (4000 - 4000 / 2) (by omega)]

theorem exC5_take : exC5.take 4001 = List.replicate 3999 'a' ++ cs "\n\n" := by
  rw [exC5, List.take_append_eq_append_take,
    List.take_of_length_le (show (List.replicate 3999 'a').length ≤ 4001 by
      rw [List.length_replicate]; omega),
    show 4001 - (List.replicate 3999 'a').length = 2 by
      rw [List.length_replicate],
    show (cs "\n\nbcd").take 2 = cs "\n\n" from rfl]

theorem exC5_drop : exC5.drop 4001 = cs "bcd" := by
  rw [exC5, List.drop_append_eq_append_drop,
    List.drop_of_length_le (show (List.replicate 3999 'a').length ≤ 4001 by
      rw [List.length_replicate]; omega),
    show 4001 - (List.replicate 3999 'a').length = 2 by
      rw [List.length_replicate],
    show (cs "\n\nbcd").drop 2 = cs "bcd" from rfl, List.nil_append]

theorem exC5_no_lt : '<' ∉ (List.replicate 3999 'a' ++ cs "\n\n") := by
  intro hm
  rcases List.mem_append.mp hm with hm | hm
  · exact absurd (List.eq_of_mem_replicate hm) (by decide)
  · exact absurd hm (by decide)

theorem exC5_part1_repair :
    ensureHTMLTagsClosed (List.replicate 3999 'a' ++ cs "\n\n") =
      List.replicate 3999 'a' ++ cs "\n\n" := by
  rw [ensureHTMLTagsClosed]
  have hB : appendedClosers (List.replicate 3999 'a' ++ cs "\n\n") = [] := by
    simp only [appendedClosers]
    rw [openTags_no_lt exC5_no_lt, closeTags_no_lt exC5_no_lt]
    decide
  rw [hB, List.append_nil]

theorem exC5_parts : splitHTMLMessage exC5 4000 =
    [List.replicate 3999 'a' ++ cs "\n\n", cs "bcd"] := by
  rw [splitHTMLMessage, exC5_length, show (4004 : Nat) = 4003 + 1 from rfl,
    splitHTMLGo, if_pos (by rw [exC5_length]; omega), exC5_split_point]
  show ensureHTMLTagsClosed (exC5.take 4001) ::
    splitHTMLGo 4000 4003 (exC5.drop 4001) =
    [List.replicate 3999 'a' ++ cs "\n\n", cs "bcd"]
  rw [exC5_take, exC5_drop, exC5_part1_repair,
    show (4003 : Nat) = 4002 + 1 from rfl, splitHTMLGo,
    if_neg (show ¬ (4000 < (cs "bcd").length) by decide),
    if_pos (show 0 < (cs "bcd").length by decide)]

theorem partAttempts_allfail1 (o : Nat → SendRes) (ho : ∀ j, o j ≠ SendRes.ok)
    (h p : List Char) (k : Nat) :
    partAttempts o h p k 1 =
      ([Ev.partHtml h (o k), Ev.partPlain p (o (k + 1))], k + 2, false) := by
  rw [show partAttempts o h p k 1 =
      (if o k = SendRes.ok then ([Ev.partHtml h (o k)], k + 1, true)
       else ([Ev.partHtml h (o k), Ev.partPlain p (o (k + 1))], k + 2,
         decide (o (k + 1) = SendRes.ok))) from rfl,
    if_neg (ho k), decide_eq_false (ho (k + 1))]

theorem partAttempts_allfail2 (o : Nat → SendRes) (ho : ∀ j, o j ≠ SendRes.ok)
    (h p : List Char) (k : Nat) :
    partAttempts o h p k 2 =
      ([Ev.partHtml h (o k), Ev.partHtml h (o (k + 1)),
        Ev.partPlain p (o (k + 2))], k + 3, false) := by
  rw [show partAttempts o h p k 2 =
      (if o k = SendRes.ok then ([Ev.partHtml h (o k)], k + 1, true)
       else (Ev.partHtml h (o k) :: (partAttempts o h p (k + 1) 1).1,
         (partAttempts o h p (k + 1) 1).2)) from rfl,
    if_neg (ho k), partAttempts_allfail1 o ho h p (k + 1)]

theorem partAttempts_allfail3 (o : Nat → SendRes) (ho : ∀ j, o j ≠ SendRes.ok)
    (h p : List Char) (k : Nat) :
    partAttempts o h p k 3 =
      ([Ev.partHtml h (o k), Ev.partHtml h (o (k + 1)),
        Ev.partHtml h (o (k + 2)), Ev.partPlain p (o (k + 3))], k + 4, false) := by
  rw [show partAttempts o h p k 3 =
      (if o k = SendRes.ok then ([Ev.partHtml h (o k)], k + 1, true)
       else (Ev.partHtml h (o k) :: (partAttempts o h p (k + 1) 2).1,
         (partAttempts o h p (k + 1) 2).2)) from rfl,
    if_neg (ho k), partAttempts_allfail2 o ho h p (k + 1)]

theorem sendHTML_two_parts_allfail (o : Nat → SendRes)
    (ho : ∀ j, o j ≠ SendRes.ok) (p1 p2 : List Char) :
    sendHTMLPartsLoop o 2 0 1 [p1, p2] =
      [Ev.partHtml (htmlPartHeader 1 2 ++ p1) (o 0),
       Ev.partHtml (htmlPartHeader 1 2 ++ p1) (o 1),
       Ev.partHtml (htmlPartHeader 1 2 ++ p1) (o 2),
       Ev.partPlain (stripHTMLTags (htmlPartHeader 1 2 ++ p1)) (o 3),
       Ev.partHtml (htmlPartHeader 2 2 ++ p2) (o 4),
       Ev.partHtml (htmlPartHeader 2 2 ++ p2) (o 5),
       Ev.partHtml (htmlPartHeader 2 2 ++ p2) (o 6),
       Ev.partPlain (stripHTMLTags (htmlPartHeader 2 2 ++ p2)) (o 7)] := by
  show (partAttempts o (htmlPartHeader 1 2 ++ p1)
      (stripHTMLTags (htmlPartHeader 1 2 ++ p1)) 0 3).1 ++
    ((partAttempts o (htmlPartHeader 2 2 ++ p2)
        (stripHTMLTags (htmlPartHeader 2 2 ++ p2))
        (partAttempts o (htmlPartHeader 1 2 ++ p1)
          (stripHTMLTags (htmlPartHeader 1 2 ++ p1)) 0 3).2.1 3).1 ++ []) = _
  rw [partAttempts_allfail3 o ho (htmlPartHeader 1 2 ++ p1)
    (stripHTMLTags (htmlPartHeader 1 2 ++ p1)) 0]
  show [Ev.partHtml (htmlPartHeader 1 2 ++ p1) (o 0),
       Ev.partHtml (htmlPartHeader 1 2 ++ p1) (o 1),
       Ev.partHtml (htmlPartHeader 1 2 ++ p1) (o 2),
       Ev.partPlain (stripHTMLTags (htmlPartHeader 1 2 ++ p1)) (o 3)] ++
    ((partAttempts o (htmlPartHeader 2 2 ++ p2)
        (stripHTMLTags (htmlPartHeader 2 2 ++ p2)) 4 3).1 ++ []) = _
  rw [partAttempts_allfail3 o ho (htmlPartHeader 2 2 ++ p2)
    (stripHTMLTags (htmlPartHeader 2 2 ++ p2)) 4]
  rfl

theorem partAttempts3_shape (o : Nat → SendRes) (h p : List Char) (k : Nat) :
    (partAttempts o h p k 3).1 = [Ev.partHtml h (o k)] ∨
    (partAttempts o h p k 3).1 =
      [Ev.partHtml h (o k), Ev.partHtml h (o (k + 1))] ∨
    (partAttempts o h p k 3).1 =
      [Ev.partHtml h (o k), Ev.partHtml h (o (k + 1)),
       Ev.partHtml h (o (k + 2))] ∨
    (partAttempts o h p k 3).1 =
      [Ev.partHtml h (o k), Ev.partHtml h (o (k + 1)),
       Ev.partHtml h (o (k + 2)), Ev.partPlain p (o (k + 3))] := by
  rw [show partAttempts o h p k 3 =
      (if o k = SendRes.ok then ([Ev.partHtml h (o k)], k + 1, true)
       else (Ev.partHtml h (o k) :: (partAttempts o h p (k + 1) 2).1,
         (partAttempts o h p (k + 1) 2).2)) from rfl]
  by_cases h0 : o k = SendRes.ok
  · rw [if_pos h0]; exact Or.inl rfl
  rw [if_neg h0,
    show partAttempts o h p (k + 1) 2 =
      (if o (k + 1) = SendRes.ok then ([Ev.partHtml h (o (k + 1))], k + 2, true)
       else (Ev.partHtml h (o (k + 1)) :: (partAttempts o h p (k + 2) 1).1,
         (partAttempts o h p (k + 2) 1).2)) from rfl]
  by_cases h1 : o (k + 1) = SendRes.ok
  · rw [if_pos h1]; exact Or.inr (Or.inl rfl)
  rw [if_neg h1,
    show partAttempts o h p (k + 2) 1 =
      (if o (k + 2) = SendRes.ok then ([Ev.partHtml h (o (k + 2))], k + 3, true)
       else ([Ev.partHtml h (o (k + 2)), Ev.partPlain p (o (k + 3))], k + 4,
         decide (o (k + 3) = SendRes.ok))) from rfl]
  by_cases h2 : o (k + 2) = SendRes.ok
  · rw [if_pos h2]; exact Or.inr (Or.inr (Or.inl rfl))
  · rw [if_neg h2]; exact Or.inr (Or.inr (Or.inr rfl))

theorem partAttempts3_no_fallback (o : Nat → SendRes) (h p : List Char)
    (k : Nat) : (partAttempts o h p k 3).1.filter isFallbackEv = [] := by
  rcases partAttempts3_shape o h p k with hs | hs | hs | hs <;> rw [hs] <;> rfl

theorem sendHTMLPartsLoop_no_fallback (o : Nat → SendRes) (total : Nat) :
    ∀ parts k idx,
      (sendHTMLPartsLoop o total k idx parts).filter isFallbackEv = [] := by
  intro parts
  induction parts with
  | nil => intro k idx; rfl
  | cons p ps ih =>
    intro k idx
    show (((partAttempts o ((if 1 < total then htmlPartHeader idx total else []) ++ p)
        (stripHTMLTags ((if 1 < total then htmlPartHeader idx total else []) ++ p))
        k 3).1 ++
      sendHTMLPartsLoop o total
        (partAttempts o ((if 1 < total then htmlPartHeader idx total else []) ++ p)
          (stripHTMLTags ((if 1 < total then htmlPartHeader idx total else []) ++ p))
          k 3).2.1 (idx + 1) ps).filter isFallbackEv) = []
    rw [List.filter_append, partAttempts3_no_fallback, ih, List.append_nil]

theorem sendMultipartHTML_no_fallback (o : Nat → SendRes) (text : List Char) :
    (sendMultipartHTMLMessage o text).filter isFallbackEv = [] := by
  show (sendHTMLPartsLoop o (splitHTMLMessage text 4000).length 0 1
    (splitHTMLMessage text 4000)).filter isFallbackEv = []
  exact sendHTMLPartsLoop_no_fallback o _ _ 0 1

theorem mdRetry_allfail {o : Nat → SendRes} (ho : ∀ j, o j ≠ SendRes.ok)
    (p : List Char) :
    ∀ rem k, ∃ evs r, mdRetry o p k rem = evs ++ [Ev.fallback r] := by
  intro rem
  induction rem with
  | zero => exact fun k => ⟨[], o k, by rw [mdRetry]; rfl⟩
  | succ rem ih =>
    intro k
    rw [show mdRetry o p k (rem + 1) =
      (if o k = SendRes.ok then [Ev.singleHtml p (o k)]
       else if o k = SendRes.errParse then
         (if o (k + 1) = SendRes.ok then
            [Ev.singleHtml p (o k),
             Ev.singlePlain (stripHTMLTags p) (o (k + 1))]
          else Ev.singleHtml p (o k) ::
            Ev.singlePlain (stripHTMLTags p) (o (k + 1)) ::
              mdRetry o p (k + 2) rem)
       else Ev.singleHtml p (o k) :: mdRetry o p (k + 1) rem) from rfl]
    rw [if_neg (ho k)]
    by_cases hp : o k = SendRes.errParse
    · rw [if_pos hp, if_neg (ho (k + 1))]
      obtain ⟨evs, r, he⟩ := ih (k + 2)
      exact ⟨Ev.singleHtml p (o k) ::
        Ev.singlePlain (stripHTMLTags p) (o (k + 1)) :: evs, r, by rw [he]; rfl⟩
    · rw [if_neg hp]
      obtain ⟨evs, r, he⟩ := ih (k + 1)
      exact ⟨Ev.singleHtml p (o k) :: evs, r, by rw [he]; rfl⟩

/-- Claim C5 as stated is false: on exC5 (two parts) with an oracle that
fails every send, the multipart HTML orchestrator emits no fallback notice
at all (so the terminal failure is a silent drop), and it makes six HTML
part attempts — three for the second part after the first part has already
permanently failed, so it does not stop at the first failed part. -/
theorem c5_counterexample :
    (splitHTMLMessage exC5 4000).length = 2 ∧
    (sendMultipartHTMLMessage (fun _ => SendRes.errOther) exC5).filter
      isFallbackEv = [] ∧
    ((sendMultipartHTMLMessage (fun _ => SendRes.errOther) exC5).filter
      isPartHtmlEv).length = 6 ∧
    ((sendMultipartHTMLMessage (fun _ => SendRes.errOther) exC5).filter
      isPartPlainEv).length = 2 := by
  have ho : ∀ j, (fun _ : Nat => SendRes.errOther) j ≠ SendRes.ok :=
    fun j hj => nomatch hj
  have htrace : sendMultipartHTMLMessage (fun _ => SendRes.errOther) exC5 =
      [Ev.partHtml (htmlPartHeader 1 2 ++ (List.replicate 3999 'a' ++ cs "\n\n"))
         SendRes.errOther,
       Ev.partHtml (htmlPartHeader 1 2 ++ (List.replicate 3999 'a' ++ cs "\n\n"))
         SendRes.errOther,
       Ev.partHtml (htmlPartHeader 1 2 ++ (List.replicate 3999 'a' ++ cs "\n\n"))
         SendRes.errOther,
       Ev.partPlain (stripHTMLTags
         (htmlPartHeader 1 2 ++ (List.replicate 3999 'a' ++ cs "\n\n")))
         SendRes.errOther,
       Ev.partHtml (htmlPartHeader 2 2 ++ cs "bcd") SendRes.errOther,
       Ev.partHtml (htmlPartHeader 2 2 ++ cs "bcd") SendRes.errOther,
       Ev.partHtml (htmlPartHeader 2 2 ++ cs "bcd") SendRes.errOther,
       Ev.partPlain (stripHTMLTags (htmlPartHeader 2 2 ++ cs "bcd"))
         SendRes.errOther] := by
    show sendHTMLPartsLoop (fun _ => SendRes.errOther)
      (splitHTMLMessage exC5 4000).length 0 1 (splitHTMLMessage exC5 4000) = _
    rw [exC5_parts]
    exact sendHTML_two_parts_allfail (fun _ => SendRes.errOther) ho
      (List.replicate 3999 'a' ++ cs "\n\n") (cs "bcd")
  refine ⟨by rw [exC5_parts]; rfl, ?_, ?_, ?_⟩ <;> rw [htrace] <;> rfl

/-- Claim C5, corrected: the generic fallback notice exists only in the
single-message path.  If every send attempt fails and the processed text
fits in one part, sendMarkdownMessage's trace ends with the fallback
notice send; the multipart HTML orchestrator, by contrast, never sends a
fallback notice for any input or oracle (and, per c5_counterexample, it
keeps attempting the remaining parts after a part has permanently
failed). -/
theorem c5_amended (o : Nat → SendRes) (text : List Char)
    (ho : ∀ j, o j ≠ SendRes.ok)
    (hlen : (convertToTelegramHTML text).length ≤ 4000) :
    (∃ evs r, sendMarkdownMessage o text = evs ++ [Ev.fallback r]) ∧
    ∀ t : List Char,
      (sendMultipartHTMLMessage o t).filter isFallbackEv = [] := by
  constructor
  · show ∃ evs r,
      (if 4000 < (convertToTelegramHTML text).length then
        sendMultipartHTMLMessage o (convertToTelegramHTML text)
      else mdRetry o (convertToTelegramHTML text) 0 3) = evs ++ [Ev.fallback r]
    rw [if_neg (by omega)]
    exact mdRetry_allfail ho (convertToTelegramHTML text) 3 0
  · exact fun t => sendMultipartHTML_no_fallback o t

/-- Witness for c5_amended on a short text with an oracle failing every
attempt. -/
theorem c5_amended_witness :
    (∃ evs r, sendMarkdownMessage (fun _ => SendRes.errOther) (cs "hi") =
      evs ++ [Ev.fallback r]) ∧
    ∀ t : List Char,
      (sendMultipartHTMLMessage (fun _ => SendRes.errOther) t).filter
        isFallbackEv = [] :=
  c5_amended (fun _ => SendRes.errOther) (cs "hi") (fun j hj => nomatch hj)
    (by decide)

theorem utf8TokensF_nil : ∀ f, utf8TokensF f [] = [] := by
  intro f; cases f <;> rfl

theorem utf8TokensF_congr :
    ∀ f1 {f2 : Nat} {s : List Nat}, s.length ≤ f1 → s.length ≤ f2 →
      utf8TokensF f1 s = utf8TokensF f2 s := by
  intro f1
  induction f1 with
  | zero =>
    intro f2 s h1 _
    have : s = [] := List.length_eq_zero.mp (by omega)
    subst this
    rw [utf8TokensF_nil, utf8TokensF_nil]
  | succ f1 ih =>
    intro f2 s h1 h2
    cases s with
    | nil => rw [utf8TokensF_nil, utf8TokensF_nil]
    | cons b rest =>
      cases f2 with
      | zero => simp at h2
      | succ g =>
        rw [utf8TokensF.eq_def, utf8TokensF.eq_def]
        simp only []
        simp only [List.length_cons] at h1 h2
        by_cases hb1 : b < 0x80
        · rw [if_pos hb1, if_pos hb1]
          exact congrArg _ (ih (by first | omega | (simp only [List.length_cons]; omega)) (by first | omega | (simp only [List.length_cons]; omega)))
        rw [if_neg hb1, if_neg hb1]
        by_cases hb2 : 0xC2 ≤ b ∧ b ≤ 0xDF
        · rw [if_pos hb2, if_pos hb2]
          cases rest with
          | nil => rfl
          | cons b1 r1 =>
            simp only []
            simp only [List.length_cons] at h1 h2
            by_cases hc : isCont b1 = true
            · rw [if_pos hc, if_pos hc]
              exact congrArg _ (ih (by first | omega | (simp only [List.length_cons]; omega)) (by first | omega | (simp only [List.length_cons]; omega)))
            · rw [if_neg hc, if_neg hc]
              exact congrArg _ (ih (by first | omega | (simp only [List.length_cons]; omega)) (by first | omega | (simp only [List.length_cons]; omega)))
        rw [if_neg hb2, if_neg hb2]
        by_cases hb3 : 0xE0 ≤ b ∧ b ≤ 0xEF
        · rw [if_pos hb3, if_pos hb3]
          cases rest with
          | nil => simp only []; rw [utf8TokensF_nil, utf8TokensF_nil]
          | cons b1 r1 =>
            cases r1 with
            | nil =>
              simp only []
              simp only [List.length_cons] at h1 h2
              exact congrArg _ (ih (by first | omega | (simp only [List.length_cons]; omega)) (by first | omega | (simp only [List.length_cons]; omega)))
            | cons b2 r2 =>
              simp only []
              simp only [List.length_cons] at h1 h2
              by_cases hc : (cont3ok b b1 && isCont b2) = true
              · rw [if_pos hc, if_pos hc]
                exact congrArg _ (ih (by first | omega | (simp only [List.length_cons]; omega)) (by first | omega | (simp only [List.length_cons]; omega)))
              · rw [if_neg hc, if_neg hc]
                exact congrArg _ (ih (by first | omega | (simp only [List.length_cons]; omega)) (by first | omega | (simp only [List.length_cons]; omega)))
        rw [if_neg hb3, if_neg hb3]
        by_cases hb4 : 0xF0 ≤ b ∧ b ≤ 0xF4
        · rw [if_pos hb4, if_pos hb4]
          cases rest with
          | nil => simp only []; rw [utf8TokensF_nil, utf8TokensF_nil]
          | cons b1 r1 =>
            cases r1 with
            | nil =>
              simp only []
              simp only [List.length_cons] at h1 h2
              exact congrArg _ (ih (by first | omega | (simp only [List.length_cons]; omega)) (by first | omega | (simp only [List.length_cons]; omega)))
            | cons b2 r2 =>
              cases r2 with
              | nil =>
                simp only []
                simp only [List.length_cons] at h1 h2
                exact congrArg _ (ih (by first | omega | (simp only [List.length_cons]; omega)) (by first | omega | (simp only [List.length_cons]; omega)))
              | cons b3 r3 =>
                simp only []
                simp only [List.length_cons] at h1 h2
                by_cases hc : (cont4ok b b1 && isCont b2 && isCont b3) = true
                · rw [if_pos hc, if_pos hc]
                  exact congrArg _ (ih (by first | omega | (simp only [List.length_cons]; omega)) (by first | omega | (simp only [List.length_cons]; omega)))
                · rw [if_neg hc, if_neg hc]
                  exact congrArg _ (ih (by first | omega | (simp only [List.length_cons]; omega)) (by first | omega | (simp only [List.length_cons]; omega)))
        rw [if_neg hb4, if_neg hb4]
        exact congrArg _ (ih (by first | omega | (simp only [List.length_cons]; omega)) (by first | omega | (simp only [List.length_cons]; omega)))

theorem utf8TokensF_flatten : ∀ fuel bs, bs.length ≤ fuel →
    ((utf8TokensF fuel bs).map tokBytes).flatten = bs := by
  intro fuel
  induction fuel with
  | zero =>
    intro bs h1
    have : bs = [] := List.length_eq_zero.mp (by omega)
    subst this
    rfl
  | succ f1 ih =>
    intro bs h1
    cases bs with
    | nil => rfl
    | cons b rest =>
      rw [utf8TokensF.eq_def]
      simp only []
      simp only [List.length_cons] at h1
      by_cases hb1 : b < 0x80
      · rw [if_pos hb1]
        simp only [List.map_cons, List.flatten_cons, tokBytes,
          List.singleton_append]
        rw [ih rest (by omega)]
      rw [if_neg hb1]
      by_cases hb2 : 0xC2 ≤ b ∧ b ≤ 0xDF
      · rw [if_pos hb2]
        cases rest with
        | nil => rfl
        | cons b1 r1 =>
          simp only []
          simp only [List.length_cons] at h1
          by_cases hc : isCont b1 = true
          · rw [if_pos hc]
            simp only [List.map_cons, List.flatten_cons, tokBytes,
              List.cons_append, List.nil_append]
            rw [ih r1 (by omega)]
          · rw [if_neg hc]
            simp only [List.map_cons, List.flatten_cons, tokBytes,
              List.singleton_append]
            rw [ih (b1 :: r1) (by simp only [List.length_cons]; omega)]
      rw [if_neg hb2]
      by_cases hb3 : 0xE0 ≤ b ∧ b ≤ 0xEF
      · rw [if_pos hb3]
        cases rest with
        | nil =>
          simp only []
          rw [utf8TokensF_nil]
          rfl
        | cons b1 r1 =>
          cases r1 with
          | nil =>
            simp only []
            simp only [List.length_cons] at h1
            simp only [List.map_cons, List.flatten_cons, tokBytes,
              List.singleton_append]
            rw [ih [b1] (by simp only [List.length_cons]; omega)]
          | cons b2 r2 =>
            simp only []
            simp only [List.length_cons] at h1
            by_cases hc : (cont3ok b b1 && isCont b2) = true
            · rw [if_pos hc]
              simp only [List.map_cons, List.flatten_cons, tokBytes,
                List.cons_append, List.nil_append]
              rw [ih r2 (by omega)]
            · rw [if_neg hc]
              simp only [List.map_cons, List.flatten_cons, tokBytes,
                List.singleton_append]
              rw [ih (b1 :: b2 :: r2) (by simp only [List.length_cons]; omega)]
      rw [if_neg hb3]
      by_cases hb4 : 0xF0 ≤ b ∧ b ≤ 0xF4
      · rw [if_pos hb4]
        cases rest with
        | nil =>
          simp only []
          rw [utf8TokensF_nil]
          rfl
        | cons b1 r1 =>
          cases r1 with
          | nil =>
            simp only []
            simp only [List.length_cons] at h1
            simp only [List.map_cons, List.flatten_cons, tokBytes,
              List.singleton_append]
            rw [ih [b1] (by simp only [List.length_cons]; omega)]
          | cons b2 r2 =>
            cases r2 with
            | nil =>
              simp only []
              simp only [List.length_cons] at h1
              simp only [List.map_cons, List.flatten_cons, tokBytes,
                List.singleton_append]
              rw [ih [b1, b2] (by simp only [List.length_cons]; omega)]
            | cons b3 r3 =>
              simp only []
              simp only [List.length_cons] at h1
              by_cases hc : (cont4ok b b1 && isCont b2 && isCont b3) = true
              · rw [if_pos hc]
                simp only [List.map_cons, List.flatten_cons, tokBytes,
                  List.cons_append, List.nil_append]
                rw [ih r3 (by omega)]
              · rw [if_neg hc]
                simp only [List.map_cons, List.flatten_cons, tokBytes,
                  List.singleton_append]
                rw [ih (b1 :: b2 :: b3 :: r3)
                  (by simp only [List.length_cons]; omega)]
      rw [if_neg hb4]
      simp only [List.map_cons, List.flatten_cons, tokBytes,
        List.singleton_append]
      rw [ih rest (by omega)]

theorem utf8Tokens_flatten (bs : List Nat) :
    ((utf8Tokens bs).map tokBytes).flatten = bs :=
  utf8TokensF_flatten bs.length bs (Nat.le_refl _)

theorem encode2 (b b1 : Nat) (hb : 0xC2 ≤ b ∧ b ≤ 0xDF)
    (h1 : 0x80 ≤ b1 ∧ b1 ≤ 0xBF) :
    utf8Encode ((b - 0xC0) * 0x40 + (b1 - 0x80)) = [b, b1] ∧
    validScalar ((b - 0xC0) * 0x40 + (b1 - 0x80)) := by
  constructor
  · rw [utf8Encode, if_neg (by omega), if_pos (by omega)]
    simp only [List.cons.injEq]
    exact ⟨by omega, by omega, trivial⟩
  · exact ⟨by omega, by omega⟩

theorem encode3 (b b1 b2 : Nat) (hb : 0xE0 ≤ b ∧ b ≤ 0xEF)
    (h1 : 0x80 ≤ b1 ∧ b1 ≤ 0xBF) (h2 : 0x80 ≤ b2 ∧ b2 ≤ 0xBF)
    (hlo : 0x800 ≤ (b - 0xE0) * 0x1000 + (b1 - 0x80) * 0x40 + (b2 - 0x80))
    (hsur : ¬(0xD800 ≤ (b - 0xE0) * 0x1000 + (b1 - 0x80) * 0x40 + (b2 - 0x80) ∧
      (b - 0xE0) * 0x1000 + (b1 - 0x80) * 0x40 + (b2 - 0x80) ≤ 0xDFFF)) :
    utf8Encode ((b - 0xE0) * 0x1000 + (b1 - 0x80) * 0x40 + (b2 - 0x80)) =
      [b, b1, b2] ∧
    validScalar ((b - 0xE0) * 0x1000 + (b1 - 0x80) * 0x40 + (b2 - 0x80)) := by
  constructor
  · rw [utf8Encode, if_neg (by omega), if_neg (by omega), if_neg hsur,
      if_pos (by omega)]
    simp only [List.cons.injEq]
    exact ⟨by omega, by omega, by omega, trivial⟩
  · exact ⟨by omega, hsur⟩

theorem encode4 (b b1 b2 b3 : Nat) (hb : 0xF0 ≤ b ∧ b ≤ 0xF4)
    (h1 : 0x80 ≤ b1 ∧ b1 ≤ 0xBF) (h2 : 0x80 ≤ b2 ∧ b2 ≤ 0xBF)
    (h3 : 0x80 ≤ b3 ∧ b3 ≤ 0xBF)
    (hlo : 0x10000 ≤ (b - 0xF0) * 0x40000 + (b1 - 0x80) * 0x1000 +
      (b2 - 0x80) * 0x40 + (b3 - 0x80))
    (hhi : (b - 0xF0) * 0x40000 + (b1 - 0x80) * 0x1000 +
      (b2 - 0x80) * 0x40 + (b3 - 0x80) < 0x110000) :
    utf8Encode ((b - 0xF0) * 0x40000 + (b1 - 0x80) * 0x1000 +
      (b2 - 0x80) * 0x40 + (b3 - 0x80)) = [b, b1, b2, b3] ∧
    validScalar ((b - 0xF0) * 0x40000 + (b1 - 0x80) * 0x1000 +
      (b2 - 0x80) * 0x40 + (b3 - 0x80)) := by
  constructor
  · rw [utf8Encode, if_neg (by omega), if_neg (by omega), if_neg (by omega),
      if_neg (by omega), if_pos hhi]
    simp only [List.cons.injEq]
    exact ⟨by omega, by omega, by omega, by omega, trivial⟩
  · exact ⟨by omega, by omega⟩

set_option maxRecDepth 4000 in
theorem utf8TokensF_valid_sound : ∀ fuel bs r ob,
    Utf8Tok.valid r ob ∈ utf8TokensF fuel bs →
    utf8Encode r = ob ∧ validScalar r := by
  intro fuel
  induction fuel with
  | zero =>
    intro bs r ob h
    rw [show utf8TokensF 0 bs = [] from rfl] at h
    exact absurd h (List.not_mem_nil _)
  | succ f1 ih =>
    intro bs r ob h
    cases bs with
    | nil =>
      rw [utf8TokensF_nil] at h
      exact absurd h (List.not_mem_nil _)
    | cons b rest =>
      rw [utf8TokensF.eq_def] at h
      simp only [] at h
      by_cases hb1 : b < 0x80
      · rw [if_pos hb1] at h
        rcases List.mem_cons.mp h with he | hm
        · injection he with hr hob
          subst hr; subst hob
          exact ⟨by rw [utf8Encode, if_pos hb1], by omega, by omega⟩
        · exact ih rest r ob hm
      rw [if_neg hb1] at h
      by_cases hb2 : 0xC2 ≤ b ∧ b ≤ 0xDF
      · rw [if_pos hb2] at h
        cases rest with
        | nil =>
          rcases List.mem_cons.mp h with he | hm
          · exact (Utf8Tok.noConfusion he)
          · exact absurd hm (List.not_mem_nil _)
        | cons b1 r1 =>
          simp only [] at h
          by_cases hc : isCont b1 = true
          · rw [if_pos hc] at h
            simp only [isCont, Bool.and_eq_true, decide_eq_true_eq] at hc
            rcases List.mem_cons.mp h with he | hm
            · injection he with hr hob
              subst hr; subst hob
              exact encode2 b b1 hb2 hc
            · exact ih r1 r ob hm
          · rw [if_neg hc] at h
            rcases List.mem_cons.mp h with he | hm
            · exact (Utf8Tok.noConfusion he)
            · exact ih (b1 :: r1) r ob hm
      rw [if_neg hb2] at h
      by_cases hb3 : 0xE0 ≤ b ∧ b ≤ 0xEF
      · rw [if_pos hb3] at h
        cases rest with
        | nil =>
          simp only [] at h
          rcases List.mem_cons.mp h with he | hm
          · exact (Utf8Tok.noConfusion he)
          · rw [utf8TokensF_nil] at hm
            exact absurd hm (List.not_mem_nil _)
        | cons b1 r1 =>
          cases r1 with
          | nil =>
            simp only [] at h
            rcases List.mem_cons.mp h with he | hm
            · exact (Utf8Tok.noConfusion he)
            · exact ih [b1] r ob hm
          | cons b2 r2 =>
            simp only [] at h
            by_cases hc : (cont3ok b b1 && isCont b2) = true
            · rw [if_pos hc] at h
              rw [Bool.and_eq_true] at hc
              obtain ⟨hc1, hc2⟩ := hc
              simp only [isCont, Bool.and_eq_true, decide_eq_true_eq] at hc2
              rcases List.mem_cons.mp h with he | hm
              · injection he with hr hob
                subst hr; subst hob
                by_cases hE0 : b = 0xE0
                · rw [cont3ok, if_pos hE0] at hc1
                  simp only [Bool.and_eq_true, decide_eq_true_eq] at hc1
                  exact encode3 b b1 b2 hb3 ⟨by omega, hc1.2⟩ hc2
                    (by omega) (by omega)
                · by_cases hED : b = 0xED
                  · rw [cont3ok, if_neg hE0, if_pos hED] at hc1
                    simp only [Bool.and_eq_true, decide_eq_true_eq] at hc1
                    exact encode3 b b1 b2 hb3 ⟨hc1.1, by omega⟩ hc2
                      (by omega) (by omega)
                  · rw [cont3ok, if_neg hE0, if_neg hED] at hc1
                    simp only [isCont, Bool.and_eq_true, decide_eq_true_eq]
                      at hc1
                    exact encode3 b b1 b2 hb3 hc1 hc2 (by omega) (by omega)
              · exact ih r2 r ob hm
            · rw [if_neg hc] at h
              rcases List.mem_cons.mp h with he | hm
              · exact (Utf8Tok.noConfusion he)
              · exact ih (b1 :: b2 :: r2) r ob hm
      rw [if_neg hb3] at h
      by_cases hb4 : 0xF0 ≤ b ∧ b ≤ 0xF4
      · rw [if_pos hb4] at h
        cases rest with
        | nil =>
          simp only [] at h
          rcases List.mem_cons.mp h with he | hm
          · exact (Utf8Tok.noConfusion he)
          · rw [utf8TokensF_nil] at hm
            exact absurd hm (List.not_mem_nil _)
        | cons b1 r1 =>
          cases r1 with
          | nil =>
            simp only [] at h
            rcases List.mem_cons.mp h with he | hm
            · exact (Utf8Tok.noConfusion he)
            · exact ih [b1] r ob hm
          | cons b2 r2 =>
            cases r2 with
            | nil =>
              simp only [] at h
              rcases List.mem_cons.mp h with he | hm
              · exact (Utf8Tok.noConfusion he)
              · exact ih [b1, b2] r ob hm
            | cons b3 r3 =>
              simp only [] at h
              by_cases hc : (cont4ok b b1 && isCont b2 && isCont b3) = true
              · rw [if_pos hc] at h
                rw [Bool.and_eq_true, Bool.and_eq_true] at hc
                obtain ⟨⟨hc1, hc2⟩, hc3⟩ := hc
                simp only [isCont, Bool.and_eq_true, decide_eq_true_eq] at hc2
                simp only [isCont, Bool.and_eq_true, decide_eq_true_eq] at hc3
                rcases List.mem_cons.mp h with he | hm
                · injection he with hr hob
                  subst hr; subst hob
                  by_cases hF0 : b = 0xF0
                  · rw [cont4ok, if_pos hF0] at hc1
                    simp only [Bool.and_eq_true, decide_eq_true_eq] at hc1
                    exact encode4 b b1 b2 b3 hb4 ⟨by omega, hc1.2⟩ hc2 hc3
                      (by omega) (by omega)
                  · by_cases hF4 : b = 0xF4
                    · rw [cont4ok, if_neg hF0, if_pos hF4] at hc1
                      simp only [Bool.and_eq_true, decide_eq_true_eq] at hc1
                      exact encode4 b b1 b2 b3 hb4 ⟨hc1.1, by omega⟩ hc2 hc3
                        (by omega) (by omega)
                    · rw [cont4ok, if_neg hF0, if_neg hF4] at hc1
                      simp only [isCont, Bool.and_eq_true, decide_eq_true_eq]
                        at hc1
                      exact encode4 b b1 b2 b3 hb4 hc1 hc2 hc3
                        (by omega) (by omega)
                · exact ih r3 r ob hm
              · rw [if_neg hc] at h
                rcases List.mem_cons.mp h with he | hm
                · exact (Utf8Tok.noConfusion he)
                · exact ih (b1 :: b2 :: b3 :: r3) r ob hm
      rw [if_neg hb4] at h
      rcases List.mem_cons.mp h with he | hm
      · exact (Utf8Tok.noConfusion he)
      · exact ih rest r ob hm

theorem utf8Tokens_encode_cons (r : Nat) (hr : validScalar r) (t : List Nat) :
    utf8Tokens (utf8Encode r ++ t) =
      Utf8Tok.valid r (utf8Encode r) :: utf8Tokens t := by
  obtain ⟨hup, hsur⟩ := hr
  by_cases h1 : r < 0x80
  · have henc : utf8Encode r = [r] := by rw [utf8Encode, if_pos h1]
    rw [henc, utf8Tokens, List.length_append,
      show ([r] : List Nat).length = 1 from rfl,
      show ([r] : List Nat) ++ t = r :: t from rfl,
      show 1 + t.length = t.length + 1 by omega]
    rw [utf8TokensF.eq_def]
    simp only []
    rw [if_pos h1]
    rfl
  by_cases h2 : r < 0x800
  · have henc : utf8Encode r = [0xC0 + r / 0x40, 0x80 + r % 0x40] := by
      rw [utf8Encode, if_neg h1, if_pos h2]
    rw [henc, utf8Tokens, List.length_append,
      show ([0xC0 + r / 0x40, 0x80 + r % 0x40] : List Nat).length = 2 from rfl,
      show ([0xC0 + r / 0x40, 0x80 + r % 0x40] : List Nat) ++ t =
        (0xC0 + r / 0x40) :: (0x80 + r % 0x40) :: t from rfl,
      show 2 + t.length = (t.length + 1) + 1 by omega]
    rw [utf8TokensF.eq_def]
    simp only []
    rw [if_neg (by omega), if_pos (by constructor <;> omega),
      if_pos (show isCont (0x80 + r % 0x40) = true by
        simp only [isCont, Bool.and_eq_true, decide_eq_true_eq]; omega)]
    rw [show (0xC0 + r / 0x40 - 0xC0) * 0x40 + (0x80 + r % 0x40 - 0x80) = r by
      omega]
    rw [@utf8TokensF_congr (t.length + 1) t.length t (by omega) (Nat.le_refl _)]
    rfl
  by_cases h3 : r < 0x10000
  · have henc : utf8Encode r =
        [0xE0 + r / 0x1000, 0x80 + r / 0x40 % 0x40, 0x80 + r % 0x40] := by
      rw [utf8Encode, if_neg h1, if_neg h2, if_neg hsur, if_pos h3]
    have h3ok : (cont3ok (0xE0 + r / 0x1000) (0x80 + r / 0x40 % 0x40) &&
        isCont (0x80 + r % 0x40)) = true := by
      rw [Bool.and_eq_true]
      constructor
      · rw [cont3ok]
        by_cases hA : 0xE0 + r / 0x1000 = 0xE0
        · rw [if_pos hA]
          simp only [Bool.and_eq_true, decide_eq_true_eq]
          omega
        · by_cases hD : 0xE0 + r / 0x1000 = 0xED
          · rw [if_neg hA, if_pos hD]
            simp only [Bool.and_eq_true, decide_eq_true_eq]
            omega
          · rw [if_neg hA, if_neg hD]
            simp only [isCont, Bool.and_eq_true, decide_eq_true_eq]
            omega
      · simp only [isCont, Bool.and_eq_true, decide_eq_true_eq]
        omega
    rw [henc, utf8Tokens, List.length_append,
      show ([0xE0 + r / 0x1000, 0x80 + r / 0x40 % 0x40, 0x80 + r % 0x40] :
        List Nat).length = 3 from rfl,
      show ([0xE0 + r / 0x1000, 0x80 + r / 0x40 % 0x40, 0x80 + r % 0x40] :
        List Nat) ++ t = (0xE0 + r / 0x1000) :: (0x80 + r / 0x40 % 0x40) ::
          (0x80 + r % 0x40) :: t from rfl,
      show 3 + t.length = ((t.length + 1) + 1) + 1 by omega]
    rw [utf8TokensF.eq_def]
    simp only []
    rw [if_neg (by omega), if_neg (by omega),
      if_pos (show 0xE0 ≤ 0xE0 + r / 0x1000 ∧ 0xE0 + r / 0x1000 ≤ 0xEF by
        constructor <;> omega),
      if_pos h3ok]
    rw [show (0xE0 + r / 0x1000 - 0xE0) * 0x1000 +
      (0x80 + r / 0x40 % 0x40 - 0x80) * 0x40 + (0x80 + r % 0x40 - 0x80) = r by
      omega]
    rw [@utf8TokensF_congr ((t.length + 1) + 1) t.length t (by omega)
      (Nat.le_refl _)]
    rfl
  · have henc : utf8Encode r =
        [0xF0 + r / 0x40000, 0x80 + r / 0x1000 % 0x40, 0x80 + r / 0x40 % 0x40,
         0x80 + r % 0x40] := by
      rw [utf8Encode, if_neg h1, if_neg h2, if_neg hsur, if_neg h3, if_pos hup]
    have h4ok : (cont4ok (0xF0 + r / 0x40000) (0x80 + r / 0x1000 % 0x40) &&
        isCont (0x80 + r / 0x40 % 0x40) && isCont (0x80 + r % 0x40)) = true := by
      rw [Bool.and_eq_true, Bool.and_eq_true]
      refine ⟨⟨?_, ?_⟩, ?_⟩
      · rw [cont4ok]
        by_cases hA : 0xF0 + r / 0x40000 = 0xF0
        · rw [if_pos hA]
          simp only [Bool.and_eq_true, decide_eq_true_eq]
          omega
        · by_cases hD : 0xF0 + r / 0x40000 = 0xF4
          · rw [if_neg hA, if_pos hD]
            simp only [Bool.and_eq_true, decide_eq_true_eq]
            omega
          · rw [if_neg hA, if_neg hD]
            simp only [isCont, Bool.and_eq_true, decide_eq_true_eq]
            omega
      · simp only [isCont, Bool.and_eq_true, decide_eq_true_eq]
        omega
      · simp only [isCont, Bool.and_eq_true, decide_eq_true_eq]
        omega
    rw [henc, utf8Tokens, List.length_append,
      show ([0xF0 + r / 0x40000, 0x80 + r / 0x1000 % 0x40,
        0x80 + r / 0x40 % 0x40, 0x80 + r % 0x40] : List Nat).length = 4
        from rfl,
      show ([0xF0 + r / 0x40000, 0x80 + r / 0x1000 % 0x40,
        0x80 + r / 0x40 % 0x40, 0x80 + r % 0x40] : List Nat) ++ t =
        (0xF0 + r / 0x40000) :: (0x80 + r / 0x1000 % 0x40) ::
          (0x80 + r / 0x40 % 0x40) :: (0x80 + r % 0x40) :: t from rfl,
      show 4 + t.length = (((t.length + 1) + 1) + 1) + 1 by omega]
    rw [utf8TokensF.eq_def]
    simp only []
    rw [if_neg (by omega), if_neg (by omega), if_neg (by omega),
      if_pos (show 0xF0 ≤ 0xF0 + r / 0x40000 ∧ 0xF0 + r / 0x40000 ≤ 0xF4 by
        constructor <;> omega),
      if_pos h4ok]
    rw [show (0xF0 + r / 0x40000 - 0xF0) * 0x40000 +
      (0x80 + r / 0x1000 % 0x40 - 0x80) * 0x1000 +
      (0x80 + r / 0x40 % 0x40 - 0x80) * 0x40 + (0x80 + r % 0x40 - 0x80) = r by
      omega]
    rw [@utf8TokensF_congr (((t.length + 1) + 1) + 1) t.length t (by omega)
      (Nat.le_refl _)]
    rfl

theorem runeFix_id (r : Nat) : runeFix r = r := by
  rw [runeFix]
  split
  · omega
  · rfl

theorem utf8Valid_encode_list : ∀ rs : List Nat, (∀ r ∈ rs, validScalar r) →
    utf8ValidString ((rs.map utf8Encode).flatten) = true := by
  intro rs
  induction rs with
  | nil => intro _; rfl
  | cons r rs ih =>
    intro hall
    simp only [List.map_cons, List.flatten_cons]
    rw [utf8ValidString,
      utf8Tokens_encode_cons r (hall r (List.mem_cons_self _ _)) _,
      List.all_cons,
      show tokIsValid (Utf8Tok.valid r (utf8Encode r)) = true from rfl,
      Bool.true_and]
    have h2 := ih (fun x hx => hall x (List.mem_cons_of_mem _ hx))
    rw [utf8ValidString] at h2
    exact h2

theorem stringsMapUTF8_runeFix (bs : List Nat) :
    stringsMapUTF8 runeFix bs = ((utf8Tokens bs).map repairBytes).flatten := by
  rw [stringsMapUTF8]
  refine congrArg List.flatten (List.map_congr_left ?_)
  intro tok htok
  cases tok with
  | valid r ob =>
    have hs := utf8TokensF_valid_sound bs.length bs r ob htok
    simp only [repairBytes]
    rw [runeFix_id, hs.1]
  | invalid b =>
    simp only [repairBytes]
    rw [runeFix_id]
    rfl

theorem ensureUTF8_repair (bs : List Nat) :
    ensureUTF8 bs = ((utf8Tokens bs).map repairBytes).flatten := by
  rw [ensureUTF8]
  by_cases hv : utf8ValidString bs = true
  · rw [if_pos hv]
    have hmap : List.map repairBytes (utf8Tokens bs) =
        List.map tokBytes (utf8Tokens bs) := by
      refine List.map_congr_left ?_
      intro tok htok
      cases tok with
      | valid r ob => rfl
      | invalid b =>
        exfalso
        rw [utf8ValidString] at hv
        have := List.all_eq_true.mp hv _ htok
        simp [tokIsValid] at this
    rw [hmap, utf8Tokens_flatten]
  · rw [if_neg hv]
    exact stringsMapUTF8_runeFix bs

theorem ensureUTF8_valid_output (bs : List Nat) :
    utf8ValidString (ensureUTF8 bs) = true := by
  rw [ensureUTF8]
  by_cases hv : utf8ValidString bs = true
  · rw [if_pos hv]
    exact hv
  rw [if_neg hv, stringsMapUTF8_runeFix]
  have : ((utf8Tokens bs).map repairBytes).flatten =
      (((utf8Tokens bs).map fun tok =>
        match tok with
        | Utf8Tok.valid r _ => r
        | Utf8Tok.invalid _ => 0xFFFD).map utf8Encode).flatten := by
    rw [List.map_map]
    refine congrArg List.flatten (List.map_congr_left ?_)
    intro tok htok
    cases tok with
    | valid r ob =>
      have hs := utf8TokensF_valid_sound bs.length bs r ob htok
      simp only [repairBytes, Function.comp]
      exact hs.1.symm
    | invalid b =>
      simp only [repairBytes, Function.comp]
      decide
  rw [this]
  refine utf8Valid_encode_list _ ?_
  intro r hr
  rcases List.mem_map.mp hr with ⟨tok, htok, hrt⟩
  cases tok with
  | valid r0 ob =>
    have hs := utf8TokensF_valid_sound bs.length bs r0 ob htok
    simp only [] at hrt
    rw [← hrt]
    exact hs.2
  | invalid b =>
    simp only [] at hrt
    rw [← hrt]
    exact ⟨by omega, by omega⟩

/-- Claim C7, corrected: ensureUTF8 never fails: it maps the input
rune-by-rune, keeping every well-formed encoding verbatim and replacing
each byte run of an invalid encoding with the replacement character, and
its output is always valid UTF-8; it is the identity on already-valid
input.  sanitizeResponse is that repair followed by CRLF normalization
(which, per c7_counterexample, removes carriage-return bytes even outside
invalid spans). -/
theorem c7_amended (bs : List Nat) :
    ensureUTF8 bs = ((utf8Tokens bs).map repairBytes).flatten ∧
    utf8ValidString (ensureUTF8 bs) = true ∧
    (utf8ValidString bs = true → ensureUTF8 bs = bs) ∧
    sanitizeResponse bs = crlfReplace (((utf8Tokens bs).map repairBytes).flatten) :=
  ⟨ensureUTF8_repair bs, ensureUTF8_valid_output bs,
   fun hv => by rw [ensureUTF8, if_pos hv],
   by rw [sanitizeResponse, ensureUTF8_repair bs]⟩

/-- Witness for c7_amended on a byte string with an invalid byte. -/
theorem c7_amended_witness :
    ensureUTF8 [255, 97] = (((utf8Tokens [255, 97]).map repairBytes).flatten) ∧
    utf8ValidString (ensureUTF8 [255, 97]) = true ∧
    ensureUTF8 [97, 98] = [97, 98] ∧
    sanitizeResponse [255, 97] =
      crlfReplace (((utf8Tokens [255, 97]).map repairBytes).flatten) :=
  ⟨(c7_amended [255, 97]).1, (c7_amended [255, 97]).2.1,
   (c7_amended [97, 98]).2.2.1 (by decide), (c7_amended [255, 97]).2.2.2⟩

/-- Claim C7 as stated is false for sanitizeResponse: the input
[97, 13, 10, 98] ("a\r\nb") is already valid UTF-8, yet sanitizeResponse
drops its carriage-return byte, altering bytes outside any invalid span. -/
theorem c7_counterexample :
    utf8ValidString [97, 13, 10, 98] = true ∧
    sanitizeResponse [97, 13, 10, 98] = [97, 10, 98] := by decide

theorem ensureUTF8_valid_id (bs : List Nat) (hv : utf8ValidString bs = true) :
    ensureUTF8 bs = bs := by
  rw [ensureUTF8, if_pos hv]

/-- Claim C8, corrected: for valid-UTF-8 input of length at most 4000 whose
first send succeeds, sendMessage emits exactly one message whose text is
the input itself, with no part header.  (For invalid input the sent text
is the UTF-8 repair of the input, not the input itself: c8_counterexample.) -/
theorem c8_amended (o : Nat → SendRes) (bs : List Nat)
    (hv : utf8ValidString bs = true) (hlen : bs.length ≤ 4000)
    (hok : o 0 = SendRes.ok) :
    sendMessageB o bs = [EvB.single bs SendRes.ok] := by
  show (if 4000 < (ensureUTF8 bs).length then
      sendMultipartMessageB o (ensureUTF8 bs)
    else smRetryB o (ensureUTF8 bs) 0 3) = _
  rw [ensureUTF8_valid_id bs hv, if_neg (by omega)]
  rw [show smRetryB o bs 0 3 =
    (if o 0 = SendRes.ok then [EvB.single bs (o 0)]
     else EvB.single bs (o 0) :: smRetryB o bs (0 + 1) 2) from rfl,
    if_pos hok, hok]

/-- Witness for c8_amended on the two-byte ASCII input "hi". -/
theorem c8_amended_witness :
    sendMessageB (fun _ => SendRes.ok) [104, 105] =
      [EvB.single [104, 105] SendRes.ok] :=
  c8_amended (fun _ => SendRes.ok) [104, 105] (by decide) (by decide) rfl

/-- Claim C8 as stated is false: the one-byte input 0xFF is within the size
limit, yet the single message sent carries the repaired text EF BF BD, not
the input itself. -/
theorem c8_counterexample :
    ([255] : List Nat).length ≤ 4000 ∧
    sendMessageB (fun _ => SendRes.ok) [255] =
      [EvB.single [239, 191, 189] SendRes.ok] ∧
    ([239, 191, 189] : List Nat) ≠ [255] := by decide

/-- Claim C4 as stated is false: on the scenario input the translator does
not produce italic markup for the single-asterisk span. -/
theorem c4_counterexample :
    convertToTelegramHTML (cs "**Hello** *world*, see [docs](http://x.com)") ≠
      cs "<b>Hello</b> <i>world</i>, see <a href=\"http://x.com\">docs</a>" := by
  decide

/-- Claim C4, corrected: the single-asterisk span *world* is translated to
bold markup (the source maps single `*...*` to `<b>...</b>`, the same tag
as `**...**`), so the scenario input yields bold, not italic. -/
theorem c4_amended :
    convertToTelegramHTML (cs "**Hello** *world*, see [docs](http://x.com)") =
      cs "<b>Hello</b> <b>world</b>, see <a href=\"http://x.com\">docs</a>" := by
  decide

theorem lookupA_insertA [DecidableEq κ] (k n : κ) (v : ν) :
    ∀ m : List (κ × ν),
      lookupA k (insertA n v m) = if k = n then some v else lookupA k m := by
  intro m
  induction m with
  | nil =>
    rw [insertA, lookupA, lookupA]
    split <;> rfl
  | cons p rest ih =>
    obtain ⟨k', v'⟩ := p
    rw [insertA]
    by_cases hnk : n = k'
    · rw [if_pos hnk, lookupA, lookupA]
      subst hnk
      by_cases hk : k = n
      · rw [if_pos hk, if_pos hk]
      · rw [if_neg hk, if_neg hk, if_neg hk]
    · rw [if_neg hnk, lookupA, lookupA, ih]
      by_cases hk : k = k'
      · rw [if_pos hk, if_neg (show ¬ k = n from fun hh => hnk (by rw [← hk]; exact hh.symm)),
          if_pos hk]
      · rw [if_neg hk, if_neg hk]

theorem lookupA_eraseA [DecidableEq κ] (k n : κ) :
    ∀ m : List (κ × ν),
      lookupA k (eraseA n m) = if k = n then none else lookupA k m := by
  intro m
  induction m with
  | nil =>
    rw [show eraseA n ([] : List (κ × ν)) = [] from rfl, lookupA]
    split <;> rfl
  | cons p rest ih =>
    obtain ⟨k', v'⟩ := p
    have hstep : eraseA n ((k', v') :: rest) =
        if k' = n then eraseA n rest else (k', v') :: eraseA n rest := by
      by_cases hh : k' = n <;> simp [eraseA, List.filter_cons, hh]
    rw [hstep]
    by_cases hkn2 : k' = n
    · rw [if_pos hkn2, ih, lookupA]
      by_cases hk : k = n
      · rw [if_pos hk, if_pos hk]
      · rw [if_neg hk, if_neg hk,
          if_neg (show ¬ k = k' from fun hh => hk (by rw [hh]; exact hkn2))]
    · rw [if_neg hkn2, lookupA, ih]
      by_cases hk : k = k'
      · rw [if_pos hk,
          if_neg (show ¬ k = n from fun hh => hkn2 (by rw [← hk]; exact hh)),
          lookupA, if_pos hk]
      · rw [if_neg hk]
        by_cases hn : k = n
        · rw [if_pos hn, if_pos hn]
        · rw [if_neg hn, if_neg hn, lookupA, if_neg hk]

theorem applyUserOp_inv (u : UserM) (op : UserOp) (h : userInv u) :
    userInv (applyUserOp u op) := by
  cases op with
  | settoken args =>
    simp only [applyUserOp]
    split
    · exact h
    · exact h
  | setmodel args =>
    simp only [applyUserOp]
    split
    · exact h
    · cases hl : lookupA (trimSpace args) u.models with
      | none => simp only [hl]; exact h
      | some mid =>
        simp only [hl]
        right
        show (lookupA (trimSpace args) u.models).isSome = true
        rw [hl]
        rfl
  | addmodel args =>
    simp only [applyUserOp]
    split
    · exact h
    · split
      · exact h
      · rcases h with h | h
        · exact Or.inl h
        · right
          show (lookupA u.currentModel
            (insertA (trimSpace ((splitN2 args).getD 0 []))
              (trimSpace ((splitN2 args).getD 1 [])) u.models)).isSome = true
          rw [lookupA_insertA]
          split
          · rfl
          · exact h
  | removemodel args =>
    simp only [applyUserOp]
    split
    · exact h
    · cases hl : lookupA (trimSpace args) u.models with
      | none => simp only [hl]; exact h
      | some mid =>
        simp only [hl]
        by_cases hcur : u.currentModel = trimSpace args
        · left
          show (if u.currentModel = trimSpace args then [] else u.currentModel) = []
          rw [if_pos hcur]
        · rcases h with h | h
          · left
            show (if u.currentModel = trimSpace args then [] else u.currentModel) = []
            rw [if_neg hcur]
            exact h
          · right
            show (lookupA
              (if u.currentModel = trimSpace args then [] else u.currentModel)
              (eraseA (trimSpace args) u.models)).isSome = true
            rw [if_neg hcur, lookupA_eraseA, if_neg hcur]
            exact h

theorem applyUserOps_inv (ops : List UserOp) :
    ∀ u, userInv u → userInv (applyUserOps ops u) := by
  induction ops with
  | nil => intro u h; exact h
  | cons op rest ih => intro u h; exact ih _ (applyUserOp_inv u op h)

theorem newUser_inv : userInv newUser :=
  Or.inr (by decide)

/-- Claim C9, confirmed: along every sequence of model-management commands
starting from the record getUser creates, the stored CurrentModel is the
empty string or a key of Models; removemodel clears CurrentModel exactly
when the removed model is the current one; setmodel leaves the record
unchanged when the name is not already in Models. -/
theorem c9_current_model_invariant :
    (∀ ops : List UserOp, userInv (applyUserOps ops newUser)) ∧
    (∀ u args, u.currentModel = trimSpace args →
      (lookupA (trimSpace args) u.models).isSome = true → args ≠ [] →
      (applyUserOp u (UserOp.removemodel args)).currentModel = []) ∧
    (∀ u args, lookupA (trimSpace args) u.models = none →
      applyUserOp u (UserOp.setmodel args) = u) := by
  refine ⟨fun ops => applyUserOps_inv ops newUser newUser_inv, ?_, ?_⟩
  · intro u args hcur hsome hne
    simp only [applyUserOp]
    rw [if_neg hne]
    cases hl : lookupA (trimSpace args) u.models with
    | none => rw [hl] at hsome; exact absurd hsome (by simp)
    | some mid =>
      simp only [hl]
      show (if u.currentModel = trimSpace args then [] else u.currentModel) = []
      rw [if_pos hcur]
  · intro u args hl
    simp only [applyUserOp]
    split
    · rfl
    · simp only [hl]

/-- Witness for c9_current_model_invariant on the initial record. -/
theorem c9_current_model_invariant_witness :
    userInv (applyUserOps [UserOp.removemodel (cs "gpt-4")] newUser) ∧
    (applyUserOp newUser (UserOp.removemodel (cs "gpt-3.5-turbo"))).currentModel
      = [] ∧
    applyUserOp newUser (UserOp.setmodel (cs "zzz")) = newUser :=
  ⟨c9_current_model_invariant.1 [UserOp.removemodel (cs "gpt-4")],
   c9_current_model_invariant.2.1 newUser (cs "gpt-3.5-turbo") (by decide)
     (by decide) (by decide),
   c9_current_model_invariant.2.2 newUser (cs "zzz") (by decide)⟩

theorem authStep_already (pw : List Char) (auth : List (Int × Bool))
    (uid : Int) (msg : List Char) (h : lookupA uid auth = some true) :
    authStep pw auth uid msg = (auth, true) := by
  simp only [authStep, h]

theorem authStep_preserves (pw : List Char) (auth : List (Int × Bool))
    (uid u2 : Int) (msg : List Char) (h : lookupA uid auth = some true) :
    lookupA uid (authStep pw auth u2 msg).1 = some true := by
  rw [authStep.eq_def]
  split
  · exact h
  · split
    · show lookupA uid (insertA u2 true auth) = some true
      rw [lookupA_insertA]
      split
      · rfl
      · exact h
    · exact h

theorem runAuth_preserves (pw : List Char) :
    ∀ (calls : List (Int × List Char)) (auth : List (Int × Bool)) (uid : Int),
      lookupA uid auth = some true →
      lookupA uid (runAuth pw auth calls) = some true := by
  intro calls
  induction calls with
  | nil => intro auth uid h; exact h
  | cons c rest ih =>
    obtain ⟨u2, msg⟩ := c
    intro auth uid h
    rw [runAuth]
    exact ih _ uid (authStep_preserves pw auth uid u2 msg h)

/-- Claim C10, confirmed: once the authorization map holds true for a user
id, no sequence of further isAuthorized calls (by any users, with any
message texts) removes or falsifies the entry, and every subsequent
isAuthorized call for that id returns true regardless of the message. -/
theorem c10_auth_monotone (pw : List Char) (auth : List (Int × Bool))
    (uid : Int) (h : lookupA uid auth = some true) :
    ∀ calls : List (Int × List Char),
      lookupA uid (runAuth pw auth calls) = some true ∧
      ∀ msg, (authStep pw (runAuth pw auth calls) uid msg).2 = true := by
  intro calls
  have hp := runAuth_preserves pw calls auth uid h
  exact ⟨hp, fun msg => by rw [authStep_already pw _ uid msg hp]⟩

/-- Witness for c10_auth_monotone: user 5 stays authorized across another
user's failed attempt and answers true to an arbitrary later message. -/
theorem c10_auth_monotone_witness :
    lookupA 5 (runAuth (cs "pw") [((5 : Int), true)]
      [((7 : Int), cs "nope")]) = some true ∧
    ∀ msg, (authStep (cs "pw") (runAuth (cs "pw") [((5 : Int), true)]
      [((7 : Int), cs "nope")]) 5 msg).2 = true :=
  c10_auth_monotone (cs "pw") [((5 : Int), true)] 5 (by decide)
    [((7 : Int), cs "nope")]
